import Mathlib

/-!
# A verification development for `reverse` (tail-to-head line scanner)

Shallow embedding of `reverse.go`.

* Byte slices are lists of `UInt8`; the two block buffers additionally carry
  their capacity, since `Scan` branches on `cap(s.buf2)`.
* Go `int` values are modelled by `Int`.  For a scanner built by `NewScanner`
  with a non-negative chunk size every integer the code computes stays between
  `0` and the initial `size`, so no machine wrap-around is reachable; with a
  negative chunk size the refill sizes a slice with a negative length, which is
  modelled by the `panic` outcome.
* `io.ReaderAt` is a function from the length of `p` and the offset to the
  contents of `p` after the call and the returned error.
* The unbounded `for` loop of `Scan` runs on fuel: `scanIter` is one pass through
  the loop body, `scanLoop` iterates it.  Statements about runs give a bound on the
  fuel from which every call returns.
* `NewScanner` also writes the raised ceiling back through the caller's options
  pointer; only the returned scanner is modelled.

* Statements about the reads a scan issues use `scanIterLog`, the same pass with the
  `ReadAt` calls logged; `scanIterLog_fst` shows that it is `scanIter` on the state.
* Statements that compare suppression on and off go through `withSuppression`: the pass
  with suppression on is simulated by the pass with suppression off (`sim_pass`).

The file first gives the embedding and the predicates used to state the claims, then the
lemmas, then the claims.
-/

namespace Reverse

/-! ## Data model -/

/-- Error values that `Scanner.err` can hold: `io.EOF`, the package level
`ErrOverflow`, and any other error a reader may return. -/
inductive Error where
  | EOF
  | ErrOverflow
  | other (code : Nat)
  deriving DecidableEq, Repr

/-- Result of one `ReadAt(p, off)` call: the contents of `p` after the call and the
error (`none` is Go `nil`). -/
structure ReadResult where
  data : List UInt8
  err : Option Error
  deriving DecidableEq, Repr

/-- The `io.ReaderAt` capability: length of `p` and offset to result. -/
abbrev ReaderAt := Nat → Int → ReadResult

/-- A byte slice together with its capacity. -/
structure Slice where
  data : List UInt8
  cap : Nat
  deriving DecidableEq, Repr

/-- The `nil` slice. -/
def Slice.nil : Slice := ⟨[], 0⟩

/-- Options configures scanner parameters. -/
structure Options where
  ChunkSize : Int
  BufferSize : Int
  IgnoreEmptyLine : Bool
  deriving DecidableEq, Repr

def DefaultChunkSize : Int := 1024

def DefaultBufferSize : Int := 1 <<< 20

def DefaultIgnoreEmptyLine : Bool := true

/-- Scanner is a reverse (LIFO) tail-to-head line scanner. -/
structure Scanner where
  r : ReaderAt
  last : Int
  offset : Int
  bn : Int
  err : Option Error
  opt : Options
  line : List UInt8
  buf1 : Slice
  buf2 : Slice

/-! ## Operations -/

/-- NewScanner: `none` is the nil scanner; `opt = none` is the nil options pointer. -/
def NewScanner (r : ReaderAt) (size : Int) (opt : Option Options) : Option Scanner :=
  if size < 1 then none
  else
    let opt : Options := match opt with
      | none => ⟨DefaultChunkSize, DefaultBufferSize, DefaultIgnoreEmptyLine⟩
      | some o => o
    let opt : Options :=
      if opt.BufferSize < opt.ChunkSize then { opt with BufferSize := opt.ChunkSize } else opt
    some { r := r, last := size, offset := 0, bn := 0, err := none, opt := opt,
           line := [], buf1 := Slice.nil, buf2 := Slice.nil }

/-- Index of the last occurrence of `c` in `b`, or `-1` (Go `bytes.LastIndexByte`). -/
def LastIndexByte : List UInt8 → UInt8 → Int
  | [], _ => -1
  | x :: xs, c =>
    let i := LastIndexByte xs c
    if 0 ≤ i then i + 1 else if x = c then 0 else -1

/-- noCR will remove a terminal `\r` from the byte slice. -/
def noCR (b : List UInt8) : List UInt8 :=
  if 0 < b.length ∧ b.getLast? = some 13 then b.take (b.length - 1) else b

/-- Result of one pass through the body of the `for` loop in `Scan`. -/
inductive Step where
  | ret (ok : Bool) (s : Scanner)
  | continue (s : Scanner)
  | panic

/-- One pass through the body of the `for` loop in `Scan`. -/
def scanIter (s : Scanner) : Step :=
  -- copy byte segment to line and truncate
  let s := { s with offset := LastIndexByte s.buf1.data 10 }
  if 0 ≤ s.offset then
    let s := { s with
      line := noCR (s.buf1.data.drop (s.offset + 1).toNat)
      buf1 := { s.buf1 with data := s.buf1.data.take s.offset.toNat } }
    if s.opt.IgnoreEmptyLine && s.line.length == 0 then .continue s else .ret true s
  -- no more bytes to process; head reached
  else if s.last = 0 then
    .ret true { s with line := noCR s.buf1.data, err := some .EOF }
  else
    -- check chunk size and n index; reset on chunk underflow
    let s := if s.opt.ChunkSize > s.last
      then { s with opt := { s.opt with ChunkSize := s.last } } else s
    let s := { s with last := s.last - s.opt.ChunkSize }
    -- check block buffer size/growth for overflow
    let s := { s with bn := s.opt.ChunkSize + s.buf1.data.length }
    if s.bn > s.opt.BufferSize then
      .ret false { s with line := [], err := some .ErrOverflow }
    -- a negative length for `s.buf2[:ChunkSize]` or `make` panics
    else if s.opt.ChunkSize < 0 then .panic
    else
      -- read block buffer sizer; once grown does not shrink
      let cap2 : Nat := if (s.buf2.cap : Int) ≥ s.bn then s.buf2.cap else s.bn.toNat
      -- io.ReadAt attempts to read a full block buffer
      let rr := s.r s.opt.ChunkSize.toNat s.last
      let s := { s with buf2 := ⟨rr.data, cap2⟩, err := rr.err }
      match s.err with
      | none =>
        -- `cap(s.buf2) >= s.bn`, so the append stays inside the array of `s.buf2`
        .continue { s with buf1 := ⟨s.buf2.data ++ s.buf1.data, cap2⟩, buf2 := s.buf1 }
      | some .EOF => .ret true { s with line := noCR s.buf1.data }
      | some _ => .ret false s

/-- What a `Scan` call does: return, panic, or still loop when the fuel is spent. -/
inductive Outcome where
  | returned (ok : Bool) (s : Scanner)
  | panicked
  | outOfFuel

/-- The `for` loop of `Scan`, at most `fuel` passes. -/
def scanLoop : Nat → Scanner → Outcome
  | 0, _ => .outOfFuel
  | fuel + 1, s =>
    match scanIter s with
    | .ret ok s1 => .returned ok s1
    | .continue s1 => scanLoop fuel s1
    | .panic => .panicked

/-- Scan reads the next line until the head is reached. -/
def Scan (fuel : Nat) (s : Scanner) : Outcome :=
  if s.err ≠ none then .returned false s -- failover; prior state
  else scanLoop fuel s

/-- Bytes returns the byte slice form of the current line. -/
def Bytes (s : Scanner) : List UInt8 := s.line

/-- Len returns the len of the current line. -/
def Len (s : Scanner) : Int := s.line.length

/-- IsEmpty as written in the source: `len(s.line) > 0`. -/
def IsEmpty (s : Scanner) : Bool := s.line.length > 0

/-- Err returns the most recent Scan error state. -/
def Err (s : Scanner) : Option Error := s.err

/-! ## Drivers and readers used to state the claims -/

/-- ReadAt of Go `bytes.Reader` over `src`. -/
def bytesReader (src : List UInt8) : ReaderAt := fun n off =>
  if off < 0 then ⟨[], some (.other 0)⟩
  else if off ≥ src.length then ⟨[], some .EOF⟩
  else
    let d := (src.drop off.toNat).take n
    ⟨d, if d.length < n then some .EOF else none⟩

/-- The first `k` successive `Scan` calls on `s`: for each call its result and the
scanner state after it.  No value if a call panics or does not return within `fuel`
loop passes. -/
def calls (fuel : Nat) : Nat → Scanner → Option (List (Bool × Scanner))
  | 0, _ => some []
  | k + 1, s =>
    match Scan fuel s with
    | .returned ok s1 => (calls fuel k s1).map fun cs => (ok, s1) :: cs
    | _ => none

/-- The lines of the calls that returned true, in call order. -/
def yielded (cs : List (Bool × Scanner)) : List (List UInt8) :=
  (cs.filter fun c => c.1).map fun c => Bytes c.2

/-- What a caller observes after a call: result, `Bytes()` and `Err()`. -/
def observe (c : Bool × Scanner) : Bool × List UInt8 × Option Error :=
  (c.1, Bytes c.2, Err c.2)

/-- Bytes of an ASCII string. -/
def bytesOf (t : String) : List UInt8 := t.toList.map fun c => c.toNat.toUInt8

/-! ## Specification side: predicates and expected results used to state the claims -/

/-- Reads that lie inside the source succeed and deliver its bytes. -/
def Reads (r : ReaderAt) (src : List UInt8) : Prop :=
  ∀ k off : Nat, off < src.length → off + k ≤ src.length →
    r k (off : Int) = ⟨(src.drop off).take k, none⟩

/-- Abstraction of a scanner state over `src`: `L` bytes are still unread, the pending
buffer holds the `n` bytes that follow them. -/
structure Abs (src : List UInt8) (B : Int) (ign : Bool) (L n : Nat) (s : Scanner) : Prop where
  reads : Reads s.r src
  last : s.last = L
  len : s.buf1.data.length = n
  buf : s.buf1.data = (src.drop L).take n
  bound : L + n ≤ src.length
  chunk : 1 ≤ s.opt.ChunkSize
  ceil : s.opt.BufferSize = B
  ign : s.opt.IgnoreEmptyLine = ign
  fit : (n : Int) ≤ B
  bn : s.bn ≤ B

/-- The line of the head segment: what the scanner holds once it has reached the head. -/
def headLine (p : List UInt8) : List UInt8 := noCR ((p.splitOn 10).headD [])

/-- What the successive true results of a scan of `p` look like when nothing overflows:
the segments after the first one from last to first, each without its trailing `\r`,
the empty ones left out under suppression, then the head segment with `io.EOF`. -/
def expectedObs (ign : Bool) (p : List UInt8) : List (Bool × List UInt8 × Option Error) :=
  ((((p.splitOn 10).tail.reverse.map noCR).filter fun l => !(ign && l.length == 0)).map
    fun l => (true, l, none)) ++ [(true, headLine p, some .EOF)]

/-- Every segment can be held in a buffer of `B` bytes at the moment it is cut off: the
head segment alone, any other segment together with the newline in front of it. -/
def AllFit (B : Int) (p : List UInt8) : Prop :=
  (∀ seg ∈ (p.splitOn 10).tail, (seg.length : Int) + 1 ≤ B) ∧
    (((p.splitOn 10).headD []).length : Int) ≤ B

/-- Some segment, extended by a read step of `c` bytes, does not fit in `B` bytes. -/
def Tight (c B : Int) (p : List UInt8) : Prop :=
  ∃ seg ∈ p.splitOn 10, B < min (c + seg.length) p.length

/-- The scan of `p` goes on as the scan of `p1` after the observations `pre`. -/
structure Advance (ign : Bool) (B : Int) (pre : List (Bool × List UInt8 × Option Error))
    (c1 : Int) (p1 : List UInt8) (c : Int) (p : List UInt8) : Prop where
  obs : expectedObs ign p = pre ++ expectedObs ign p1
  fit : AllFit B p1 → AllFit B p
  tight : Tight c1 B p1 → Tight c B p
  len : p1.length ≤ p.length
  head : headLine p1 = headLine p

/-- What one `Scan` call does on a state that abstracts to the pending bytes `p` with
read step `c`: it stops on overflow, or yields the next line, or yields the head line. -/
def CallPost (src : List UInt8) (B : Int) (ign : Bool) (c : Int) (p : List UInt8)
    (out : Outcome) : Prop :=
  (∃ s1, out = .returned false s1 ∧ s1.line = [] ∧ s1.err = some .ErrOverflow ∧
      B < s1.bn ∧ s1.opt.BufferSize = B ∧ Tight c B p) ∨
  (∃ s1 L1 n1, out = .returned true s1 ∧ s1.err = none ∧ Abs src B ign L1 n1 s1 ∧
      L1 + n1 < p.length ∧
      Advance ign B [(true, s1.line, none)] s1.opt.ChunkSize (src.take (L1 + n1)) c p) ∨
  (∃ s1, out = .returned true s1 ∧ s1.err = some .EOF ∧ s1.bn ≤ B ∧ s1.opt.BufferSize = B ∧
      expectedObs ign p = [(true, s1.line, some .EOF)] ∧ AllFit B p)

/-- The observations of `k` calls that first show `e` and then `x` for ever. -/
def specRun {α : Type} (k : Nat) (e : List α) (x : α) : List α :=
  e.take k ++ List.replicate (k - e.length) x

/-- The ceiling is `B`, and the last prospective buffer size is above it exactly in the
overflow state. -/
def CeilOK (B : Int) (s : Scanner) : Prop :=
  s.opt.BufferSize = B ∧ (B < s.bn ↔ s.err = some .ErrOverflow)

/-- Every number of successive calls on `s` returns, showing `e` and then `x` for ever. -/
def RunIs (fuel : Nat) (s : Scanner) (B : Int) (e : List (Bool × List UInt8 × Option Error))
    (x : Bool × List UInt8 × Option Error) : Prop :=
  ∀ k, ∃ cs, calls fuel k s = some cs ∧ cs.map observe = specRun k e x ∧
    ∀ c ∈ cs, CeilOK B c.2

/-- The whole run from a state that abstracts to the pending bytes `p`: either it stops
with overflow after a strict initial part of the expected observations, or it shows all
of them and stays at `io.EOF`. -/
def RunPost (fuel : Nat) (s : Scanner) (B : Int) (ign : Bool) (c : Int) (p : List UInt8) :
    Prop :=
  (∃ j, j < (expectedObs ign p).length ∧ Tight c B p ∧
      RunIs fuel s B ((expectedObs ign p).take j) (false, [], some .ErrOverflow)) ∨
  (AllFit B p ∧ RunIs fuel s B (expectedObs ign p) (false, headLine p, some .EOF))

/-- The configuration used when the options pointer is nil. -/
def defaultOptions : Options :=
  ⟨DefaultChunkSize, DefaultBufferSize, DefaultIgnoreEmptyLine⟩

/-- A source made of newline-terminated lines. -/
def joinLines (ls : List (List UInt8)) : List UInt8 :=
  ls.flatMap fun l => l ++ [10]

/-- The configuration of `s1` is that of `s` with a chunk size that did not grow. -/
def OptLe (s1 s : Scanner) : Prop :=
  s1.opt.BufferSize = s.opt.BufferSize ∧ s1.opt.IgnoreEmptyLine = s.opt.IgnoreEmptyLine ∧
    s1.opt.ChunkSize ≤ s.opt.ChunkSize

/-- A reader every read of which fails. -/
def failingReader : ReaderAt := fun _ _ => ⟨[], some (.other 1)⟩

/-- The scanner `NewScanner` builds over the failing reader with size 3 and nil options. -/
def failingStart : Scanner :=
  { r := failingReader, last := 3, offset := 0, bn := 0, err := none, opt := defaultOptions,
    line := [], buf1 := Slice.nil, buf2 := Slice.nil }

/-- The state in which the first `Scan` call leaves `failingStart`. -/
def failingEnd : Scanner :=
  { r := failingReader, last := 0, offset := -1, bn := 3, err := some (.other 1),
    opt := ⟨3, DefaultBufferSize, DefaultIgnoreEmptyLine⟩, line := [], buf1 := Slice.nil,
    buf2 := ⟨[], 3⟩ }

/-- The scanner states a program can reach: those `NewScanner` returns and those a
returning `Scan` call leaves. -/
inductive Reachable : Scanner → Prop where
  | new (r : ReaderAt) (size : Int) (opt : Option Options) (s : Scanner) :
      NewScanner r size opt = some s → Reachable s
  | scan (fuel : Nat) (s s1 : Scanner) (ok : Bool) :
      Reachable s → Scan fuel s = .returned ok s1 → Reachable s1

/-- A reader over `src` whose reads below the offset `limit` fail. -/
def failBelow (src : List UInt8) (limit : Int) : ReaderAt := fun k off =>
  if off < limit then ⟨[], some (.other 1)⟩ else bytesReader src k off

/-- A reader over `src` whose zero-length reads succeed at every offset, as those of a
file do. -/
def fileReader (src : List UInt8) : ReaderAt := fun k off =>
  if k = 0 then ⟨[], none⟩ else bytesReader src k off

/-- One pass through the body of the `for` loop in `Scan`, as `scanIter`, together with
the `ReadAt` call the pass issues, if any: the length of `p` and the offset. -/
def scanIterLog (s : Scanner) : Step × List (Nat × Int) :=
  let s := { s with offset := LastIndexByte s.buf1.data 10 }
  if 0 ≤ s.offset then
    let s := { s with
      line := noCR (s.buf1.data.drop (s.offset + 1).toNat)
      buf1 := { s.buf1 with data := s.buf1.data.take s.offset.toNat } }
    if s.opt.IgnoreEmptyLine && s.line.length == 0 then (.continue s, []) else (.ret true s, [])
  else if s.last = 0 then
    (.ret true { s with line := noCR s.buf1.data, err := some .EOF }, [])
  else
    let s := if s.opt.ChunkSize > s.last
      then { s with opt := { s.opt with ChunkSize := s.last } } else s
    let s := { s with last := s.last - s.opt.ChunkSize }
    let s := { s with bn := s.opt.ChunkSize + s.buf1.data.length }
    if s.bn > s.opt.BufferSize then
      (.ret false { s with line := [], err := some .ErrOverflow }, [])
    else if s.opt.ChunkSize < 0 then (.panic, [])
    else
      let cap2 : Nat := if (s.buf2.cap : Int) ≥ s.bn then s.buf2.cap else s.bn.toNat
      -- the call `s.r.ReadAt(s.buf2, int64(s.last))` with `len(s.buf2) = ChunkSize`
      let call : Nat × Int := (s.opt.ChunkSize.toNat, s.last)
      let rr := s.r s.opt.ChunkSize.toNat s.last
      let s := { s with buf2 := ⟨rr.data, cap2⟩, err := rr.err }
      match s.err with
      | none =>
        (.continue { s with buf1 := ⟨s.buf2.data ++ s.buf1.data, cap2⟩, buf2 := s.buf1 },
          [call])
      | some .EOF => (.ret true { s with line := noCR s.buf1.data }, [call])
      | some _ => (.ret false s, [call])

/-- The `for` loop of `Scan` with the `ReadAt` calls it issues, in order. -/
def scanLoopLog : Nat → Scanner → Outcome × List (Nat × Int)
  | 0, _ => (.outOfFuel, [])
  | fuel + 1, s =>
    match scanIterLog s with
    | (.ret ok s1, log) => (.returned ok s1, log)
    | (.continue s1, log) => ((scanLoopLog fuel s1).1, log ++ (scanLoopLog fuel s1).2)
    | (.panic, log) => (.panicked, log)

/-- Scan with the `ReadAt` calls it issues. -/
def ScanLog (fuel : Nat) (s : Scanner) : Outcome × List (Nat × Int) :=
  if s.err ≠ none then (.returned false s, []) else scanLoopLog fuel s

/-- The `ReadAt` calls issued by the first `k` successive `Scan` calls on `s`. -/
def callsLog (fuel : Nat) : Nat → Scanner → List (Nat × Int)
  | 0, _ => []
  | k + 1, s =>
    match ScanLog fuel s with
    | (.returned _ s1, log) => log ++ callsLog fuel k s1
    | (_, log) => log

/-- The result of a read describes the slice `p` it was given: when the error is nil the
contents have the length of `p` (in Go the length of `p` cannot change, and a reader
reports a short read by a non-nil error). -/
def KeepsLength (r : ReaderAt) : Prop :=
  ∀ k off, (r k off).err = none → (r k off).data.length = k

/-- Invariants of a scanner built with size `n` and a chunk size of at least 1, over any
reader. -/
structure Live (n : Int) (s : Scanner) : Prop where
  keeps : KeepsLength s.r
  last_nonneg : 0 ≤ s.last
  inside : s.last + s.buf1.data.length ≤ n
  chunk : 1 ≤ s.opt.ChunkSize
  buf_le : (s.buf1.data.length : Int) ≤ s.opt.BufferSize
  line_le : (s.line.length : Int) ≤ s.opt.BufferSize

/-- The reads of `log` tile the range from `bot` up to `top` backward: each has a length
of at least 1 and an offset of at least 0, the first ends at `top`, each later one ends
where the one before it starts, and the last one starts at `bot`. -/
def Tiled : Int → List (Nat × Int) → Int → Prop
  | top, [], bot => bot = top
  | top, q :: rest, bot => 1 ≤ q.1 ∧ 0 ≤ q.2 ∧ q.2 + q.1 = top ∧ Tiled q.2 rest bot

/-- What a pass from `s` with the reads `log` leaves in `s1`. -/
def PassOK (n : Int) (s : Scanner) (log : List (Nat × Int)) (s1 : Scanner) : Prop :=
  Live n s1 ∧ s1.r = s.r ∧ s1.opt.BufferSize = s.opt.BufferSize ∧ s1.last ≤ s.last ∧
    ((log = [] ∧ (s1.err = none → s1.last = s.last)) ∨
      ∃ k : Nat, log = [(k, s1.last)] ∧ 1 ≤ k ∧ s1.last + k = s.last)

/-- What a pass that continues gains: the pending buffer got shorter, or the remaining
count got smaller, and the error is still nil if it was. -/
def Progress (s s1 : Scanner) : Prop :=
  ((s1.last = s.last ∧ s1.buf1.data.length < s.buf1.data.length) ∨ s1.last < s.last) ∧
    2 * s1.last + s1.buf1.data.length < 2 * s.last + s.buf1.data.length ∧
    (s.err = none → s1.err = none)

/-- The part of a pass after the chunk size has been clamped to `c`: the refill, with the
`ReadAt` call it issues.  A proof device: `scanIterLog_refill` shows that a pass that finds
no newline and has bytes left is this. -/
def refillWith (s : Scanner) (c : Int) : Step × List (Nat × Int) :=
  let s := { s with
    offset := LastIndexByte s.buf1.data 10
    opt := { s.opt with ChunkSize := c }
    last := s.last - c
    bn := c + s.buf1.data.length }
  if s.bn > s.opt.BufferSize then
    (.ret false { s with line := [], err := some .ErrOverflow }, [])
  else if c < 0 then (.panic, [])
  else
    let cap2 : Nat := if (s.buf2.cap : Int) ≥ s.bn then s.buf2.cap else s.bn.toNat
    let rr := s.r c.toNat s.last
    let s := { s with buf2 := ⟨rr.data, cap2⟩, err := rr.err }
    match rr.err with
    | none =>
      (.continue { s with buf1 := ⟨rr.data ++ s.buf1.data, cap2⟩, buf2 := s.buf1 },
        [(c.toNat, s.last)])
    | some .EOF => (.ret true { s with line := noCR s.buf1.data }, [(c.toNat, s.last)])
    | some _ => (.ret false s, [(c.toNat, s.last)])

/-- What a `Scan` call from `s` with the reads `log` leaves in `s1`. -/
def CallOK (n : Int) (s : Scanner) (ok : Bool) (log : List (Nat × Int)) (s1 : Scanner) :
    Prop :=
  Live n s1 ∧ s1.r = s.r ∧ s1.opt.BufferSize = s.opt.BufferSize ∧ s1.last ≤ s.last ∧
    (ok = false → s1.err ≠ none) ∧
    ∃ bot, Tiled s.last log bot ∧ s1.last ≤ bot ∧ (s1.err = none → s1.last = bot)

/-- The same scanner state with empty-line suppression switched on. -/
def withSuppression (s : Scanner) : Scanner :=
  { s with opt := { s.opt with IgnoreEmptyLine := true } }

/-- A true result that suppression would have skipped: an empty line with a nil error. -/
def isBlank (ok : Bool) (s : Scanner) : Bool :=
  ok && s.err == none && s.line.length == 0

/-- An observation that suppression lets through: the line is not empty, or it comes with
an error (the head line with `io.EOF`). -/
def keptUnderSuppression (o : Bool × List UInt8 × Option Error) : Bool :=
  !(o.2.1.length == 0 && o.2.2 == none)

/-- Spec side, in the words of the ordering guarantee: a segment with its one trailing
`\r` removed when it has one, and unchanged otherwise. -/
def stripTrailingCR (seg : List UInt8) : List UInt8 :=
  if seg.getLast? = some 13 then seg.dropLast else seg

/-! ## Byte-list lemmas -/

theorem LastIndexByte_ge (b : List UInt8) (c : UInt8) : -1 ≤ LastIndexByte b c := by
  induction b with
  | nil => simp [LastIndexByte]
  | cons x xs ih =>
    simp only [LastIndexByte]
    split_ifs <;> omega

theorem LastIndexByte_lt (b : List UInt8) (c : UInt8) : LastIndexByte b c < b.length := by
  induction b with
  | nil => simp [LastIndexByte]
  | cons x xs ih =>
    simp only [LastIndexByte, List.length_cons]
    split_ifs <;> push_cast <;> omega

theorem LastIndexByte_neg_iff (b : List UInt8) (c : UInt8) : LastIndexByte b c < 0 ↔ c ∉ b := by
  induction b with
  | nil => simp [LastIndexByte]
  | cons x xs ih =>
    simp only [LastIndexByte, List.mem_cons, not_or]
    split_ifs with h1 h2
    · constructor
      · intro h; omega
      · intro h; exact absurd (ih.mpr h.2) (by omega)
    · subst h2; simp
    · have : c ∉ xs := ih.mp (by omega)
      constructor
      · intro _; exact ⟨fun h => h2 h.symm, this⟩
      · intro _; omega

theorem LastIndexByte_append_nonneg (a b : List UInt8) (c : UInt8)
    (h : 0 ≤ LastIndexByte b c) :
    LastIndexByte (a ++ b) c = a.length + LastIndexByte b c := by
  induction a with
  | nil => simp
  | cons x xs ih =>
    show LastIndexByte (x :: (xs ++ b)) c = _
    simp only [LastIndexByte, List.length_cons, ih]
    have : (0 : Int) ≤ xs.length := Int.ofNat_nonneg _
    split_ifs <;> push_cast <;> omega

theorem LastIndexByte_append_neg (a b : List UInt8) (c : UInt8)
    (h : LastIndexByte b c < 0) :
    LastIndexByte (a ++ b) c = LastIndexByte a c := by
  induction a with
  | nil =>
    have := LastIndexByte_ge b c
    simp only [List.nil_append, LastIndexByte]; omega
  | cons x xs ih =>
    show LastIndexByte (x :: (xs ++ b)) c = _
    simp only [LastIndexByte, ih]

theorem LastIndexByte_split (b : List UInt8) (c : UInt8) (i : Nat)
    (h : LastIndexByte b c = i) :
    b = b.take i ++ c :: b.drop (i + 1) ∧ c ∉ b.drop (i + 1) := by
  induction b generalizing i with
  | nil => simp [LastIndexByte] at h
  | cons x xs ih =>
    simp only [LastIndexByte] at h
    split_ifs at h with h1 h2
    · obtain ⟨j, hj⟩ : ∃ j : Nat, LastIndexByte xs c = j := ⟨_, (Int.toNat_of_nonneg h1).symm⟩
      have hi : i = j + 1 := by omega
      subst hi
      have := ih j hj
      simp only [List.take_succ_cons, List.cons_append, List.drop_succ_cons]
      exact ⟨by rw [← this.1], this.2⟩
    · have hi : i = 0 := by omega
      subst hi; subst h2
      have : x ∉ xs := (LastIndexByte_neg_iff xs x).mp (by omega)
      simpa using this

theorem splitOn_append_cons (a s : List UInt8) :
    (a ++ 10 :: s).splitOn 10 = a.splitOn 10 ++ s.splitOn 10 := by
  induction a with
  | nil => simp [List.splitOn]
  | cons x xs ih =>
    simp only [List.splitOn] at ih ⊢
    simp only [List.cons_append, List.splitOnP_cons, ih]
    split_ifs
    · simp
    · cases h : List.splitOnP (fun y => y == 10) xs with
      | nil => exact absurd h (List.splitOnP_ne_nil _ _)
      | cons y ys => simp [List.modifyHead]

theorem splitOn_no_newline (b : List UInt8) (h : LastIndexByte b 10 < 0) :
    b.splitOn 10 = [b] := by
  have h1 := (LastIndexByte_neg_iff b 10).mp h
  apply List.splitOnP_eq_single
  intro x hx hx1
  simp only [beq_iff_eq] at hx1
  exact h1 (hx1 ▸ hx)

theorem splitOn_last (b : List UInt8) (i : Nat) (h : LastIndexByte b 10 = i) :
    b.splitOn 10 = (b.take i).splitOn 10 ++ [b.drop (i + 1)] := by
  have h1 := LastIndexByte_split b 10 i h
  conv_lhs => rw [h1.1]
  rw [splitOn_append_cons, splitOn_no_newline _ ((LastIndexByte_neg_iff _ _).mpr h1.2)]

theorem splitOn_ne_nil (b : List UInt8) : b.splitOn 10 ≠ [] :=
  List.splitOnP_ne_nil _ _

/-! ## The scanner over a source whose reads succeed -/

theorem bytesReader_reads (src : List UInt8) : Reads (bytesReader src) src := by
  intro k off h1 h2
  have h3 : ¬ ((src.length : Int) ≤ off) := by omega
  have h4 : ¬ (min k (src.length - off) < k) := by omega
  simp [bytesReader, h3, h4]

theorem Abs.pending {src : List UInt8} {B : Int} {ign : Bool} {L n : Nat} {s : Scanner}
    (h : Abs src B ign L n s) : src.take (L + n) = src.take L ++ s.buf1.data := by
  rw [h.buf, List.take_add]

theorem Abs.lastIndex_found {src : List UInt8} {B : Int} {ign : Bool} {L n : Nat} {s : Scanner}
    (h : Abs src B ign L n s) (o : Nat) (ho : LastIndexByte s.buf1.data 10 = o) :
    LastIndexByte (src.take (L + n)) 10 = ((L + o : Nat) : Int) := by
  have hb := h.bound
  rw [h.pending, LastIndexByte_append_nonneg _ _ _ (by omega), ho]
  simp only [List.length_take]
  rw [Nat.min_eq_left (by omega)]
  push_cast; ring

theorem iter_found {src : List UInt8} {B : Int} {ign : Bool} {L n : Nat} {s : Scanner}
    (h : Abs src B ign L n s) (o : Nat) (ho : LastIndexByte s.buf1.data 10 = o) :
    ∃ s1, Abs src B ign L o s1 ∧ o + 1 ≤ n ∧
      s1.line = noCR ((src.take (L + n)).drop (L + o + 1)) ∧ s1.err = s.err ∧
      s1.opt.ChunkSize = s.opt.ChunkSize ∧
      scanIter s = if ign && s1.line.length == 0 then .continue s1 else .ret true s1 := by
  have hlt := LastIndexByte_lt s.buf1.data 10
  rw [ho, h.len] at hlt
  have hon : o + 1 ≤ n := by omega
  have hb := h.bound
  have hdrop : (src.take (L + n)).drop (L + o + 1) = s.buf1.data.drop (o + 1) := by
    rw [h.pending, List.drop_append_eq_append_drop]
    simp only [List.length_take]
    rw [Nat.min_eq_left (by omega), List.drop_eq_nil_of_le (by simp; omega), List.nil_append]
    congr 1; omega
  refine ⟨{ s with
      offset := o
      line := noCR (s.buf1.data.drop (o + 1))
      buf1 := { s.buf1 with data := s.buf1.data.take o } }, ?_, hon, ?_, rfl, rfl, ?_⟩
  · refine ⟨h.reads, h.last, ?_, ?_, by omega, h.chunk, h.ceil, h.ign, ?_, h.bn⟩
    · simp only [List.length_take, h.len]; omega
    · simp only [h.buf, List.take_take]
      rw [Nat.min_eq_left (by omega)]
    · have := h.fit; omega
  · simp only [hdrop]
  · have e1 : ((o : Int) + 1).toNat = o + 1 := by omega
    simp only [scanIter, ho, e1, Int.toNat_ofNat, Int.ofNat_nonneg, if_true, h.ign]

theorem iter_head {src : List UInt8} {B : Int} {ign : Bool} {n : Nat} {s : Scanner}
    (h : Abs src B ign 0 n s) (ho : LastIndexByte s.buf1.data 10 < 0) :
    LastIndexByte (src.take (0 + n)) 10 < 0 ∧
    ∃ s1, scanIter s = .ret true s1 ∧ s1.line = noCR (src.take (0 + n)) ∧
      s1.err = some .EOF ∧ s1.bn ≤ B ∧ s1.opt.BufferSize = B := by
  have hp : src.take (0 + n) = s.buf1.data := by rw [h.pending]; simp
  refine ⟨by rw [hp]; exact ho, { s with
      offset := LastIndexByte s.buf1.data 10
      line := noCR s.buf1.data
      err := some .EOF }, ?_, by rw [hp], rfl, h.bn, h.ceil⟩
  have h0 : s.last = 0 := by rw [h.last]; rfl
  have h1 : ¬ (0 ≤ LastIndexByte s.buf1.data 10) := by omega
  simp only [scanIter, h1, if_false, h0, if_true]

theorem iter_refill {src : List UInt8} {B : Int} {ign : Bool} {L n : Nat} {s : Scanner}
    (h : Abs src B ign L n s) (hL : 0 < L) (ho : LastIndexByte s.buf1.data 10 < 0)
    (c : Nat) (hc : (c : Int) = min s.opt.ChunkSize L) :
    (B < c + n → ∃ s1, scanIter s = .ret false s1 ∧ s1.line = [] ∧
        s1.err = some .ErrOverflow ∧ B < s1.bn ∧ s1.opt.BufferSize = B) ∧
    (c + n ≤ B → ∃ s1, scanIter s = .continue s1 ∧ Abs src B ign (L - c) (n + c) s1 ∧
        s1.opt.ChunkSize = c ∧ s1.err = none) := by
  have hch := h.chunk
  have hcL : c ≤ L := by omega
  have hc1 : 1 ≤ c := by omega
  have hb := h.bound
  have h0 : ¬ (s.last = 0) := by rw [h.last]; omega
  have h1 : ¬ (0 ≤ LastIndexByte s.buf1.data 10) := by omega
  have hrd := h.reads c (L - c) (by omega) (by omega)
  have hoff : s.last - (c : Int) = ((L - c : Nat) : Int) := by rw [h.last]; omega
  constructor
  · intro hov
    by_cases hcl : s.opt.ChunkSize > s.last
    · have e : s.last = c := by rw [h.last] at hcl ⊢; omega
      have hbn : s.last + (s.buf1.data.length : Int) > s.opt.BufferSize := by
        rw [e, h.len, h.ceil]; omega
      simp only [scanIter, h1, if_false, h0, hcl, if_true, hbn]
      refine ⟨_, rfl, rfl, rfl, ?_, h.ceil⟩
      show B < s.last + (s.buf1.data.length : Int)
      rw [e, h.len]; exact hov
    · have e : s.opt.ChunkSize = c := by rw [h.last] at hcl; omega
      have hbn : s.opt.ChunkSize + (s.buf1.data.length : Int) > s.opt.BufferSize := by
        rw [e, h.len, h.ceil]; omega
      simp only [scanIter, h1, if_false, h0, hcl, hbn, if_true]
      refine ⟨_, rfl, rfl, rfl, ?_, h.ceil⟩
      show B < s.opt.ChunkSize + (s.buf1.data.length : Int)
      rw [e, h.len]; exact hov
  · intro hok
    have htake : (src.drop (L - c)).take (n + c) =
        (src.drop (L - c)).take c ++ s.buf1.data := by
      rw [Nat.add_comm n c, List.take_add, List.drop_drop, h.buf]
      congr 3; omega
    by_cases hcl : s.opt.ChunkSize > s.last
    · have e : s.last = c := by rw [h.last] at hcl ⊢; omega
      have hbn : ¬ (s.last + (s.buf1.data.length : Int) > s.opt.BufferSize) := by
        rw [e, h.len, h.ceil]; omega
      have hneg : ¬ (s.last < 0) := by rw [e]; omega
      have hz : s.last - s.last = ((L - c : Nat) : Int) := by rw [← hoff, e]
      have hrd2 : s.r s.last.toNat (s.last - s.last) = ⟨(src.drop (L - c)).take c, none⟩ := by
        rw [hz, e, Int.toNat_ofNat]; exact hrd
      simp only [scanIter, h1, if_false, h0, hcl, if_true, hbn, hneg, hrd2]
      refine ⟨_, rfl, ?_, e, rfl⟩
      refine ⟨h.reads, hz, ?_, htake.symm ▸ rfl, by omega, by show 1 ≤ s.last; omega, h.ceil,
        h.ign, by omega, ?_⟩
      · simp [h.len]; omega
      · show s.last + (s.buf1.data.length : Int) ≤ B
        rw [e, h.len]; exact hok
    · have e : s.opt.ChunkSize = c := by rw [h.last] at hcl; omega
      have hbn : ¬ (s.opt.ChunkSize + (s.buf1.data.length : Int) > s.opt.BufferSize) := by
        rw [e, h.len, h.ceil]; omega
      have hneg : ¬ (s.opt.ChunkSize < 0) := by omega
      have hz : s.last - s.opt.ChunkSize = ((L - c : Nat) : Int) := by rw [← hoff, e]
      have hrd2 : s.r s.opt.ChunkSize.toNat (s.last - s.opt.ChunkSize) =
          ⟨(src.drop (L - c)).take c, none⟩ := by
        rw [hz, e, Int.toNat_ofNat]; exact hrd
      simp only [scanIter, h1, if_false, h0, hcl, hbn, hneg, hrd2]
      refine ⟨_, rfl, ?_, e, rfl⟩
      refine ⟨h.reads, hz, ?_, htake.symm ▸ rfl, by omega, h.chunk, h.ceil,
        h.ign, by omega, ?_⟩
      · simp [h.len]; omega
      · show s.opt.ChunkSize + (s.buf1.data.length : Int) ≤ B
        rw [e, h.len]; exact hok

/-! ## Expected observations, stated on the segments of the source -/

theorem Tight_mono {c c1 B : Int} {p : List UInt8} (h : Tight c1 B p) (hc : c1 ≤ c) :
    Tight c B p := by
  obtain ⟨seg, hm, hlt⟩ := h
  exact ⟨seg, hm, by omega⟩

theorem Advance_trans {ign : Bool} {B : Int} {pre1 pre2 : List (Bool × List UInt8 × Option Error)}
    {c c1 c2 : Int} {p p1 p2 : List UInt8}
    (h1 : Advance ign B pre1 c1 p1 c p) (h2 : Advance ign B pre2 c2 p2 c1 p1) :
    Advance ign B (pre1 ++ pre2) c2 p2 c p :=
  ⟨by rw [h1.obs, h2.obs, List.append_assoc], fun h => h1.fit (h2.fit h),
    fun h => h1.tight (h2.tight h), Nat.le_trans h2.len h1.len, h2.head.trans h1.head⟩

theorem Advance.chunk (ign : Bool) (B : Int) {c c1 : Int} (p : List UInt8) (hc : c1 ≤ c) :
    Advance ign B [] c1 p c p :=
  ⟨rfl, id, fun h => Tight_mono h hc, Nat.le_refl _, rfl⟩

/-- Cutting the last segment off `p`. -/
theorem Advance.cut (ign : Bool) (B c : Int) {p p1 seg : List UInt8}
    (hs : p.splitOn 10 = p1.splitOn 10 ++ [seg]) (hl : p1.length ≤ p.length)
    (hfit : (seg.length : Int) + 1 ≤ B) :
    Advance ign B (if ign && (noCR seg).length == 0 then [] else [(true, noCR seg, none)])
      c p1 c p := by
  obtain ⟨x, xs, hx⟩ : ∃ x xs, p1.splitOn 10 = x :: xs := by
    cases h : p1.splitOn 10 with
    | nil => exact absurd h (splitOn_ne_nil _)
    | cons x xs => exact ⟨x, xs, rfl⟩
  have hhead : headLine p1 = headLine p := by simp [headLine, hs, hx]
  refine ⟨?_, ?_, ?_, hl, hhead⟩
  · simp only [expectedObs, hs, hx, hhead, List.cons_append, List.tail_cons,
      List.reverse_append, List.reverse_cons, List.reverse_nil, List.nil_append,
      List.map_append, List.map_cons, List.map_nil, List.filter_append, List.filter_cons,
      List.filter_nil, List.singleton_append, List.append_assoc]
    by_cases hh : (ign && (noCR seg).length == 0) = true
    · simp [hh]
    · simp [hh]
  · rintro ⟨h1, h2⟩
    simp only [AllFit, hs, hx, List.cons_append, List.tail_cons, List.headD_cons,
      List.mem_append, List.mem_singleton] at h1 h2 ⊢
    refine ⟨?_, h2⟩
    rintro s1 (hs1 | hs1)
    · exact h1 s1 hs1
    · rw [hs1]; exact hfit
  · rintro ⟨s1, hm, hlt⟩
    refine ⟨s1, ?_, ?_⟩
    · rw [hs]; exact List.mem_append_left _ hm
    · have : (p1.length : Int) ≤ p.length := by exact_mod_cast hl
      omega

theorem expectedObs_head (ign : Bool) (p : List UInt8) (h : LastIndexByte p 10 < 0) :
    expectedObs ign p = [(true, noCR p, some .EOF)] := by
  simp [expectedObs, headLine, splitOn_no_newline p h]

theorem AllFit_head (B : Int) (p : List UInt8) (h : LastIndexByte p 10 < 0)
    (hB : (p.length : Int) ≤ B) : AllFit B p := by
  simp [AllFit, splitOn_no_newline p h, hB]

theorem exists_seg_ge (a b : List UInt8) (h : LastIndexByte b 10 < 0) :
    ∃ seg ∈ (a ++ b).splitOn 10, b.length ≤ seg.length := by
  have hab := LastIndexByte_append_neg a b 10 h
  by_cases ha : LastIndexByte a 10 < 0
  · refine ⟨a ++ b, ?_, by simp⟩
    rw [splitOn_no_newline _ (by omega)]; simp
  · obtain ⟨i, hi⟩ : ∃ i : Nat, LastIndexByte a 10 = i :=
      ⟨_, (Int.toNat_of_nonneg (by omega)).symm⟩
    have hlt := LastIndexByte_lt a 10
    refine ⟨(a ++ b).drop (i + 1), ?_, ?_⟩
    · rw [splitOn_last (a ++ b) i (by omega)]; simp
    · simp only [List.length_drop, List.length_append]; omega

theorem CallPost_mono {src : List UInt8} {B : Int} {ign : Bool} {c c1 : Int}
    {p p1 : List UInt8} {out : Outcome} (ha : Advance ign B [] c1 p1 c p)
    (h : CallPost src B ign c1 p1 out) : CallPost src B ign c p out := by
  rcases h with ⟨s1, h1, h2, h3, h4, h5, h6⟩ | ⟨s1, L1, n1, h1, h2, h3, h4, h5⟩ |
    ⟨s1, h1, h2, h3, h4, h5, h6⟩
  · exact Or.inl ⟨s1, h1, h2, h3, h4, h5, ha.tight h6⟩
  · exact Or.inr (Or.inl ⟨s1, L1, n1, h1, h2, h3, Nat.lt_of_lt_of_le h4 ha.len,
      by simpa using Advance_trans ha h5⟩)
  · exact Or.inr (Or.inr ⟨s1, h1, h2, h3, h4, by rw [ha.obs, h5]; rfl, ha.fit h6⟩)

theorem loop_spec (src : List UInt8) (B : Int) (ign : Bool) :
    ∀ (fuel : Nat) (s : Scanner) (L n : Nat), Abs src B ign L n s → s.err = none →
      2 * L + n < fuel →
      CallPost src B ign s.opt.ChunkSize (src.take (L + n)) (scanLoop fuel s) := by
  intro fuel
  induction fuel with
  | zero => intro s L n _ _ hf; omega
  | succ fuel ih =>
    intro s L n h herr hf
    have hb := h.bound
    have hplen : (src.take (L + n)).length = L + n := by
      rw [List.length_take]; omega
    by_cases ho : 0 ≤ LastIndexByte s.buf1.data 10
    · obtain ⟨o, ho1⟩ : ∃ o : Nat, LastIndexByte s.buf1.data 10 = o :=
        ⟨_, (Int.toNat_of_nonneg ho).symm⟩
      obtain ⟨s1, ha1, hon, hline, herr1, hck, hit⟩ := iter_found h o ho1
      have hidx := h.lastIndex_found o ho1
      have hsplit := splitOn_last _ _ hidx
      have htk : (src.take (L + n)).take (L + o) = src.take (L + o) := by
        rw [List.take_take, Nat.min_eq_left (by omega)]
      rw [htk] at hsplit
      have hcut := Advance.cut ign B s.opt.ChunkSize hsplit
        (by rw [hplen, List.length_take]; omega)
        (by rw [List.length_drop, hplen]; have := h.fit; omega)
      rw [← hline] at hcut
      simp only [scanLoop, hit]
      by_cases hsup : (ign && s1.line.length == 0) = true
      · simp only [hsup, if_true] at hcut ⊢
        have := ih s1 L o ha1 (herr1.trans herr) (by omega)
        rw [hck] at this
        exact CallPost_mono hcut this
      · simp only [hsup] at hcut ⊢
        refine Or.inr (Or.inl ⟨s1, L, o, rfl, herr1.trans herr, ha1, by rw [hplen]; omega, ?_⟩)
        rw [hck]; exact hcut
    · have ho : LastIndexByte s.buf1.data 10 < 0 := by omega
      by_cases hL : L = 0
      · subst hL
        obtain ⟨hneg, s1, hit, hline, herr1, hbn, hceil⟩ := iter_head h ho
        simp only [scanLoop, hit]
        refine Or.inr (Or.inr ⟨s1, rfl, herr1, hbn, hceil, ?_, ?_⟩)
        · rw [expectedObs_head ign _ hneg, hline]
        · exact AllFit_head B _ hneg (by rw [hplen]; have := h.fit; omega)
      · have hch := h.chunk
        obtain ⟨c, hc⟩ : ∃ c : Nat, (c : Int) = min s.opt.ChunkSize L :=
          ⟨(min s.opt.ChunkSize L).toNat, Int.toNat_of_nonneg (by omega)⟩
        have hc1 : (c : Int) ≤ s.opt.ChunkSize := by omega
        have hc2 : c ≤ L := by omega
        have hLpos : 0 < L := by omega
        obtain ⟨hov, hok⟩ := iter_refill h hLpos ho c hc
        by_cases hB : B < c + n
        · obtain ⟨s1, hit, hline, herr1, hbn, hceil⟩ := hov hB
          clear hov hok
          simp only [scanLoop, hit]
          refine Or.inl ⟨s1, rfl, hline, herr1, hbn, hceil, ?_⟩
          obtain ⟨seg, hm, hge⟩ := exists_seg_ge (src.take L) s.buf1.data ho
          rw [← h.pending] at hm
          refine ⟨seg, hm, ?_⟩
          rw [hplen, lt_min_iff]
          have hlen := h.len
          constructor
          · have : (n : Int) ≤ seg.length := by rw [← hlen]; exact_mod_cast hge
            omega
          · push_cast; omega
        · have hB1 : (c : Int) + n ≤ B := by omega
          obtain ⟨s1, hit, ha1, hck, herr1⟩ := hok hB1
          clear hov hok
          simp only [scanLoop, hit]
          have hfuel : 2 * (L - c) + (n + c) < fuel := by omega
          have := ih s1 (L - c) (n + c) ha1 herr1 hfuel
          have e : L - c + (n + c) = L + n := by omega
          rw [e, hck] at this
          exact CallPost_mono (Advance.chunk ign B _ hc1) this

/-! ## Runs of successive calls -/

theorem specRun_cons {α : Type} (k : Nat) (a : α) (e : List α) (x : α) :
    specRun (k + 1) (a :: e) x = a :: specRun k e x := by
  simp [specRun]

theorem specRun_nil {α : Type} (k : Nat) (x : α) :
    specRun k [] x = List.replicate k x := by
  simp [specRun]

theorem specRun_single_self {α : Type} (k : Nat) (x : α) :
    specRun k [x] x = specRun k [] x := by
  cases k with
  | zero => simp [specRun]
  | succ k => rw [specRun_cons, specRun_nil, specRun_nil]; rfl

theorem specRun_map {α β : Type} (f : α → β) (k : Nat) (e : List α) (x : α) :
    (specRun k e x).map f = specRun k (e.map f) (f x) := by
  simp [specRun, List.map_take]

theorem mem_specRun {α : Type} {k : Nat} {e : List α} {x a : α} (h : a ∈ specRun k e x) :
    a ∈ e ∨ a = x := by
  simp only [specRun, List.mem_append] at h
  rcases h with h | h
  · exact Or.inl (List.mem_of_mem_take h)
  · exact Or.inr (List.eq_of_mem_replicate h)

theorem specRun_full {α : Type} {k : Nat} {e : List α} (x : α) (h : e.length ≤ k) :
    specRun k e x = e ++ List.replicate (k - e.length) x := by
  rw [specRun, List.take_of_length_le h]

theorem Scan_of_err (fuel : Nat) (s : Scanner) (h : s.err ≠ none) :
    Scan fuel s = .returned false s := by
  simp [Scan, h]

theorem calls_of_err (fuel : Nat) (s : Scanner) (h : s.err ≠ none) :
    ∀ k, calls fuel k s = some (List.replicate k (false, s)) := by
  intro k
  induction k with
  | zero => rfl
  | succ k ih => simp [calls, Scan_of_err fuel s h, ih, List.replicate_succ]

theorem RunIs.stuck (fuel : Nat) (s : Scanner) (B : Int) (h : s.err ≠ none)
    (hc : CeilOK B s) : RunIs fuel s B [] (false, s.line, s.err) := by
  intro k
  refine ⟨_, calls_of_err fuel s h k, ?_, ?_⟩
  · simp [specRun_nil, observe, Bytes, Err]
  · intro c hc1
    rw [List.eq_of_mem_replicate hc1]; exact hc

theorem RunIs.cons {fuel : Nat} {s s1 : Scanner} {B : Int} {ok : Bool}
    {e : List (Bool × List UInt8 × Option Error)} {x : Bool × List UInt8 × Option Error}
    (h : Scan fuel s = .returned ok s1) (hc : CeilOK B s1) (hr : RunIs fuel s1 B e x) :
    RunIs fuel s B ((ok, s1.line, s1.err) :: e) x := by
  intro k
  cases k with
  | zero => exact ⟨[], rfl, by simp [specRun], by simp⟩
  | succ k =>
    obtain ⟨cs, h1, h2, h3⟩ := hr k
    refine ⟨(ok, s1) :: cs, by simp [calls, h, h1], ?_, ?_⟩
    · simp [specRun_cons, h2, observe, Bytes, Err]
    · intro c hc1
      rcases List.mem_cons.mp hc1 with rfl | hc2
      · exact hc
      · exact h3 c hc2

theorem expectedObs_getLast (ign : Bool) (p : List UInt8) :
    (expectedObs ign p).getLast? = some (true, headLine p, some .EOF) := by
  simp [expectedObs]

theorem expectedObs_length_pos (ign : Bool) (p : List UInt8) :
    0 < (expectedObs ign p).length := by
  simp [expectedObs]

theorem run_spec (src : List UInt8) (B : Int) (ign : Bool) (fuel : Nat) :
    ∀ (m : Nat) (s : Scanner) (L n : Nat), Abs src B ign L n s → s.err = none →
      L + n ≤ m → 2 * m < fuel →
      RunPost fuel s B ign s.opt.ChunkSize (src.take (L + n)) := by
  intro m
  induction m with
  | zero =>
    intro s L n h herr hm hf
    have hs : Scan fuel s = scanLoop fuel s := by simp [Scan, herr]
    have hb := h.bound
    have hplen : (src.take (L + n)).length = L + n := by rw [List.length_take]; omega
    rcases loop_spec src B ign fuel s L n h herr (by omega) with
      ⟨s1, h1, h2, h3, h4, h5, h6⟩ | ⟨s1, L1, n1, h1, h2, h3, h4, h5⟩ |
      ⟨s1, h1, h2, h3, h4, h5, h6⟩
    · rw [← hs] at h1
      refine Or.inl ⟨0, expectedObs_length_pos _ _, h6, ?_⟩
      have hc : CeilOK B s1 := ⟨h5, by simp [h3, h4]⟩
      have := RunIs.cons h1 hc (RunIs.stuck fuel s1 B (by simp [h3]) hc)
      rw [h2, h3] at this
      intro k
      obtain ⟨cs, c1, c2, c3⟩ := this k
      exact ⟨cs, c1, by rw [c2, specRun_single_self]; rfl, c3⟩
    · omega
    · rw [← hs] at h1
      refine Or.inr ⟨h6, ?_⟩
      have hc : CeilOK B s1 := ⟨h4, by simp [h2]; omega⟩
      have := RunIs.cons h1 hc (RunIs.stuck fuel s1 B (by simp [h2]) hc)
      have hl := expectedObs_getLast ign (src.take (L + n))
      rw [h5] at hl
      simp only [List.getLast?_singleton, Option.some.injEq, Prod.mk.injEq, true_and,
        and_true] at hl
      rw [h5, ← hl, ← h2]
      exact this
  | succ m ih =>
    intro s L n h herr hm hf
    have hs : Scan fuel s = scanLoop fuel s := by simp [Scan, herr]
    have hb := h.bound
    have hplen : (src.take (L + n)).length = L + n := by rw [List.length_take]; omega
    rcases loop_spec src B ign fuel s L n h herr (by omega) with
      ⟨s1, h1, h2, h3, h4, h5, h6⟩ | ⟨s1, L1, n1, h1, h2, h3, h4, h5⟩ |
      ⟨s1, h1, h2, h3, h4, h5, h6⟩
    · rw [← hs] at h1
      refine Or.inl ⟨0, expectedObs_length_pos _ _, h6, ?_⟩
      have hc : CeilOK B s1 := ⟨h5, by simp [h3, h4]⟩
      have := RunIs.cons h1 hc (RunIs.stuck fuel s1 B (by simp [h3]) hc)
      rw [h2, h3] at this
      intro k
      obtain ⟨cs, c1, c2, c3⟩ := this k
      exact ⟨cs, c1, by rw [c2, specRun_single_self]; rfl, c3⟩
    · rw [← hs] at h1
      rw [hplen] at h4
      have hc : CeilOK B s1 := ⟨h3.ceil, by have := h3.bn; simp [h2]; omega⟩
      rcases ih s1 L1 n1 h3 h2 (by omega) (by omega) with ⟨j, hj, ht, hr⟩ | ⟨hfit, hr⟩
      · refine Or.inl ⟨j + 1, by rw [h5.obs]; simpa using hj, h5.tight ht, ?_⟩
        have := RunIs.cons h1 hc hr
        rw [h5.obs]
        simpa [h2] using this
      · refine Or.inr ⟨h5.fit hfit, ?_⟩
        have := RunIs.cons h1 hc hr
        rw [h5.obs, ← h5.head]
        simpa [h2] using this
    · rw [← hs] at h1
      refine Or.inr ⟨h6, ?_⟩
      have hc : CeilOK B s1 := ⟨h4, by simp [h2]; omega⟩
      have := RunIs.cons h1 hc (RunIs.stuck fuel s1 B (by simp [h2]) hc)
      have hl := expectedObs_getLast ign (src.take (L + n))
      rw [h5] at hl
      simp only [List.getLast?_singleton, Option.some.injEq, Prod.mk.injEq, true_and,
        and_true] at hl
      rw [h5, ← hl, ← h2]
      exact this

/-! ## Construction -/

theorem NewScanner_init (r : ReaderAt) (src : List UInt8) (opt : Option Options)
    (hsrc : src ≠ []) (hr : Reads r src) (hc : 1 ≤ (opt.getD defaultOptions).ChunkSize) :
    ∃ s, NewScanner r src.length opt = some s ∧ s.err = none ∧
      s.opt.ChunkSize = (opt.getD defaultOptions).ChunkSize ∧
      s.opt.BufferSize =
        max (opt.getD defaultOptions).BufferSize (opt.getD defaultOptions).ChunkSize ∧
      s.opt.IgnoreEmptyLine = (opt.getD defaultOptions).IgnoreEmptyLine ∧
      Abs src s.opt.BufferSize s.opt.IgnoreEmptyLine src.length 0 s := by
  have hlen : 0 < src.length := List.length_pos.mpr hsrc
  have h1 : ¬ ((src.length : Int) < 1) := by omega
  cases opt with
  | none =>
    simp only [Option.getD_none] at hc ⊢
    refine ⟨_, by simp only [NewScanner, h1, if_false]; rfl, rfl, ?_, ?_, ?_, ?_⟩
    · simp [defaultOptions, DefaultChunkSize, DefaultBufferSize]
    · simp [defaultOptions, DefaultChunkSize, DefaultBufferSize]
    · simp [defaultOptions, DefaultChunkSize, DefaultBufferSize]
    · refine ⟨hr, rfl, rfl, by simp [Slice.nil], by omega, ?_, rfl, rfl, ?_, ?_⟩
      · simp [DefaultChunkSize, DefaultBufferSize]
      · simp [DefaultChunkSize, DefaultBufferSize]
      · simp [DefaultChunkSize, DefaultBufferSize]
  | some o =>
    simp only [Option.getD_some] at hc ⊢
    by_cases hb : o.BufferSize < o.ChunkSize
    · refine ⟨_, by simp only [NewScanner, h1, if_false, hb, if_true]; rfl, rfl, rfl, ?_, rfl, ?_⟩
      · show o.ChunkSize = max o.BufferSize o.ChunkSize
        omega
      · exact ⟨hr, rfl, rfl, by simp [Slice.nil], by omega, hc, rfl, rfl,
          by show (0 : Int) ≤ o.ChunkSize; omega, by show (0 : Int) ≤ o.ChunkSize; omega⟩
    · refine ⟨_, by simp only [NewScanner, h1, if_false, hb]; rfl, rfl, rfl, ?_, rfl, ?_⟩
      · show o.BufferSize = max o.BufferSize o.ChunkSize
        omega
      · exact ⟨hr, rfl, rfl, by simp [Slice.nil], by omega, hc, rfl, rfl,
          by show (0 : Int) ≤ o.BufferSize; omega, by show (0 : Int) ≤ o.BufferSize; omega⟩

/-- The whole run of a freshly constructed scanner. -/
theorem run_of_new (r : ReaderAt) (src : List UInt8) (opt : Option Options)
    (hsrc : src ≠ []) (hr : Reads r src) (hc : 1 ≤ (opt.getD defaultOptions).ChunkSize) :
    ∃ s, NewScanner r src.length opt = some s ∧
      s.opt.ChunkSize = (opt.getD defaultOptions).ChunkSize ∧
      s.opt.BufferSize =
        max (opt.getD defaultOptions).BufferSize (opt.getD defaultOptions).ChunkSize ∧
      ∀ fuel, 2 * src.length < fuel →
        RunPost fuel s s.opt.BufferSize (opt.getD defaultOptions).IgnoreEmptyLine
          (opt.getD defaultOptions).ChunkSize src := by
  obtain ⟨s, h1, h2, h3, h4, h5, h6⟩ := NewScanner_init r src opt hsrc hr hc
  refine ⟨s, h1, h3, h4, ?_⟩
  intro fuel hf
  have := run_spec src s.opt.BufferSize s.opt.IgnoreEmptyLine fuel src.length s src.length 0
    h6 h2 (by omega) hf
  simpa [h3, h5] using this

/-- A ceiling that can hold the whole source is never exceeded. -/
theorem not_tight_of_ceiling {c B : Int} {p : List UInt8} (h : (p.length : Int) ≤ B) :
    ¬ Tight c B p := by
  rintro ⟨seg, _, hlt⟩
  have := min_le_right (c + (seg.length : Int)) (p.length : Int)
  omega

theorem splitOn_length_le (p : List UInt8) : (p.splitOn 10).length ≤ p.length + 1 := by
  induction p with
  | nil => simp
  | cons x xs ih =>
    simp only [List.splitOn] at ih ⊢
    simp only [List.splitOnP_cons, List.length_cons]
    split_ifs
    · simp; omega
    · rw [List.length_modifyHead]; omega

theorem expectedObs_length_le (ign : Bool) (p : List UInt8) :
    (expectedObs ign p).length ≤ p.length + 1 := by
  have h1 := splitOn_length_le p
  have h2 := List.length_filter_le (fun l : List UInt8 => !(ign && l.length == 0))
    ((p.splitOn 10).tail.reverse.map noCR)
  simp only [List.length_map, List.length_reverse, List.length_tail] at h2
  simp only [expectedObs, List.length_append, List.length_map, List.length_singleton]
  have h3 := List.length_pos.mpr (splitOn_ne_nil p)
  omega

theorem yielded_eq (cs : List (Bool × Scanner)) :
    yielded cs = ((cs.map observe).filter fun o => o.1).map fun o => o.2.1 := by
  induction cs with
  | nil => rfl
  | cons c cs ih =>
    simp only [yielded] at ih
    by_cases h : c.1 = true
    · simp [yielded, List.filter_cons, h, observe, ih]
    · simp [yielded, List.filter_cons, h, observe, ih]

theorem expectedObs_ok (ign : Bool) (p : List UInt8) :
    ∀ o ∈ expectedObs ign p, o.1 = true := by
  intro o ho
  simp only [expectedObs, List.mem_append, List.mem_map, List.mem_singleton] at ho
  rcases ho with ⟨l, _, rfl⟩ | rfl <;> rfl

/-- The lines a complete run yields. -/
theorem yielded_of_run (cs : List (Bool × Scanner)) (k : Nat) (ign : Bool) (p l : List UInt8)
    (e : Option Error) (hk : p.length < k)
    (h : cs.map observe = specRun k (expectedObs ign p) (false, l, e)) :
    yielded cs = (expectedObs ign p).map fun o => o.2.1 := by
  have hl := expectedObs_length_le ign p
  rw [yielded_eq, h, specRun, List.take_of_length_le (by omega), List.filter_append,
    List.filter_eq_self.mpr (fun o ho => by simp [expectedObs_ok ign p o ho])]
  simp

theorem expectedObs_lines_off (p : List UInt8) :
    ((expectedObs false p).map fun o => o.2.1) = (p.splitOn 10).reverse.map noCR := by
  cases h : p.splitOn 10 with
  | nil => exact absurd h (splitOn_ne_nil p)
  | cons x xs => simp [expectedObs, headLine, h, List.filter_eq_self.mpr]

theorem noCR_spec (b : List UInt8) :
    (b.getLast? = some 13 → b = noCR b ++ [13]) ∧ (b.getLast? ≠ some 13 → noCR b = b) := by
  constructor
  · intro h
    have hne : b ≠ [] := by rintro rfl; simp at h
    have hl : 0 < b.length := List.length_pos.mpr hne
    have hg : b.getLast hne = 13 := by
      rw [List.getLast?_eq_getLast _ hne] at h
      exact Option.some.inj h
    simp only [noCR, hl, h, and_self, if_true]
    rw [← List.dropLast_eq_take]
    conv_lhs => rw [← List.dropLast_append_getLast hne, hg]
  · intro h
    simp [noCR, h]

/-- The code's `noCR` is the spec-side `stripTrailingCR`. -/
theorem noCR_eq_stripTrailingCR (b : List UInt8) : noCR b = stripTrailingCR b := by
  by_cases h : b.getLast? = some 13
  · have h1 := (noCR_spec b).1 h
    have h2 : stripTrailingCR b = b.dropLast := by simp [stripTrailingCR, h]
    rw [h2]
    conv_rhs => rw [h1]
    simp
  · rw [(noCR_spec b).2 h]
    simp [stripTrailingCR, h]

/-! ## Claims -/

/-- C1: with suppression off, a chunk size of at least 1 and a ceiling of at least the
source length, on a non-empty source whose reads succeed every call returns, and the
lines of the calls that return true are, in call order, the reverse of the segments of
the source between its newline bytes, each with its one trailing carriage return removed
when it has one (`stripTrailingCR`, stated apart from the code's `noCR`). -/
theorem C1_lines_are_reversed_segments (r : ReaderAt) (src : List UInt8) (chunk buf : Int)
    (hsrc : src ≠ []) (hr : Reads r src) (hc : 1 ≤ chunk) (hb : (src.length : Int) ≤ buf)
    (fuel k : Nat) (hf : 2 * src.length < fuel) (hk : src.length < k) :
    ∃ s cs, NewScanner r src.length (some ⟨chunk, buf, false⟩) = some s ∧
      calls fuel k s = some cs ∧
      yielded cs = (src.splitOn 10).reverse.map stripTrailingCR := by
  obtain ⟨s, h1, _, h3, h4⟩ := run_of_new r src (some ⟨chunk, buf, false⟩) hsrc hr hc
  simp only [Option.getD_some] at h3 h4
  rcases h4 fuel hf with ⟨j, _, ht, _⟩ | ⟨_, hrun⟩
  · exact absurd ht (not_tight_of_ceiling (by rw [h3]; omega))
  · obtain ⟨cs, c1, c2, _⟩ := hrun k
    refine ⟨s, cs, h1, c1, ?_⟩
    rw [yielded_of_run cs k false src _ _ hk c2, expectedObs_lines_off]
    exact List.map_congr_left (fun b _ => noCR_eq_stripTrailingCR b)

/-- Witness for C1: the source `ab\r\n\ncd\n` read through `bytes.Reader` with chunk size 3
and ceiling 100 yields the empty line, `cd`, the empty line and `ab`. -/
theorem C1_witness :
    (bytesOf "ab\r\n\ncd\n" ≠ [] ∧ (1 : Int) ≤ 3 ∧
      ((bytesOf "ab\r\n\ncd\n").length : Int) ≤ 100) ∧
    ∃ s cs, NewScanner (bytesReader (bytesOf "ab\r\n\ncd\n"))
        (bytesOf "ab\r\n\ncd\n").length (some ⟨3, 100, false⟩) = some s ∧
      calls 17 9 s = some cs ∧
      yielded cs = [[], bytesOf "cd", [], bytesOf "ab"] := by
  obtain ⟨s, cs, h1, h2, h3⟩ := C1_lines_are_reversed_segments
    (bytesReader (bytesOf "ab\r\n\ncd\n")) (bytesOf "ab\r\n\ncd\n") 3 100 (by decide)
    (bytesReader_reads _) (by decide) (by decide) 17 9 (by decide) (by decide)
  exact ⟨by decide, s, cs, h1, h2, by rw [h3]; decide⟩

theorem splitOn_joinLines (ls : List (List UInt8)) (h : ∀ l ∈ ls, (10 : UInt8) ∉ l) :
    (joinLines ls).splitOn 10 = ls ++ [[]] := by
  induction ls with
  | nil => rfl
  | cons l ls ih =>
    have h1 : ∀ x ∈ l, ¬ ((x == (10 : UInt8)) = true) := by
      intro x hx hx1
      exact h l (List.mem_cons_self _ _) (by rw [← beq_iff_eq.mp hx1]; exact hx)
    have := List.splitOnP_first (fun x => x == (10 : UInt8)) l h1 10 (by simp) (joinLines ls)
    simp only [joinLines, List.flatMap_cons, List.append_assoc, List.singleton_append,
      List.splitOn] at ih this ⊢
    rw [this, ih (fun l1 hl1 => h l1 (List.mem_cons_of_mem _ hl1))]
    rfl

theorem expectedObs_lines_joinLines (ls : List (List UInt8)) (hne : ls ≠ [])
    (h : ∀ l ∈ ls, (10 : UInt8) ∉ l ∧ noCR l ≠ []) :
    ((expectedObs true (joinLines ls)).map fun o => o.2.1) = ls.reverse.map noCR := by
  cases ls with
  | nil => exact absurd rfl hne
  | cons x xs =>
    have hf : ∀ l ∈ xs.reverse.map noCR, (!(true && l.length == 0)) = true := by
      intro l hl
      simp only [List.mem_map, List.mem_reverse] at hl
      obtain ⟨a, ha, rfl⟩ := hl
      have := (h a (List.mem_cons_of_mem _ ha)).2
      simpa using this
    have e : noCR ([] : List UInt8) = [] := by decide
    simp only [expectedObs, headLine, splitOn_joinLines _ (fun l hl => (h l hl).1),
      List.cons_append, List.tail_cons, List.headD_cons, List.reverse_append,
      List.reverse_cons, List.reverse_nil, List.nil_append, List.singleton_append,
      List.map_cons, List.map_append, List.map_nil, List.filter_cons, e]
    rw [List.filter_eq_self.mpr hf]
    simp

/-- C2, counterexample: the source made of the two non-empty lines `a` and `\r`, each
followed by a newline, scanned with suppression on, yields the single line `a`, not the
two lines (the empty one and `a`) that removing the trailing carriage returns gives: the
second call is already the one that flags `io.EOF` and the third returns false. -/
theorem C2_counterexample :
    (∀ l ∈ [bytesOf "a", bytesOf "\r"], l ≠ [] ∧ (10 : UInt8) ∉ l) ∧
    ∃ s cs, NewScanner (bytesReader (joinLines [bytesOf "a", bytesOf "\r"])) 4
        (some ⟨1, 100, true⟩) = some s ∧
      calls 9 3 s = some cs ∧
      cs.map observe = [(true, bytesOf "a", some .EOF), (false, bytesOf "a", some .EOF),
        (false, bytesOf "a", some .EOF)] ∧
      yielded cs = [bytesOf "a"] ∧
      [bytesOf "a", bytesOf "\r"].reverse.map stripTrailingCR = [[], bytesOf "a"] ∧
      yielded cs ≠ [bytesOf "a", bytesOf "\r"].reverse.map stripTrailingCR :=
  ⟨by decide, _, _, rfl, rfl, by decide, by decide, by decide, by decide⟩

/-- C2, amended: for a source made of `N ≥ 1` newline-terminated lines, each without a
newline byte and non-empty once its one trailing carriage return is removed, a scanner
with suppression on, a chunk size of at least 1 and a ceiling of at least the source
length (nil options included) has exactly `N` calls that return true, and they yield the
`N` lines in reverse order, each with its one trailing carriage return removed when it
has one (`stripTrailingCR`, stated apart from the code's `noCR`). -/
theorem C2_lines_of_terminated_source (r : ReaderAt) (ls : List (List UInt8))
    (opt : Option Options) (hN : 1 ≤ ls.length)
    (hls : ∀ l ∈ ls, (10 : UInt8) ∉ l ∧ stripTrailingCR l ≠ [])
    (hr : Reads r (joinLines ls))
    (hign : (opt.getD defaultOptions).IgnoreEmptyLine = true)
    (hc : 1 ≤ (opt.getD defaultOptions).ChunkSize)
    (hb : ((joinLines ls).length : Int) ≤ (opt.getD defaultOptions).BufferSize)
    (fuel k : Nat) (hf : 2 * (joinLines ls).length < fuel) (hk : (joinLines ls).length < k) :
    ∃ s cs, NewScanner r (joinLines ls).length opt = some s ∧
      calls fuel k s = some cs ∧ yielded cs = ls.reverse.map stripTrailingCR ∧
      (cs.filter fun c => c.1).length = ls.length := by
  have hne : ls ≠ [] := by
    intro h; rw [h] at hN; simp at hN
  have hsrc : joinLines ls ≠ [] := by
    cases ls with
    | nil => exact absurd rfl hne
    | cons x xs => simp [joinLines]
  have hls2 : ∀ l ∈ ls, (10 : UInt8) ∉ l ∧ noCR l ≠ [] := fun l hl =>
    ⟨(hls l hl).1, by rw [noCR_eq_stripTrailingCR]; exact (hls l hl).2⟩
  obtain ⟨s, h1, _, h3, h4⟩ := run_of_new r (joinLines ls) opt hsrc hr hc
  rw [hign] at h4
  rcases h4 fuel hf with ⟨j, _, ht, _⟩ | ⟨_, hrun⟩
  · exact absurd ht (not_tight_of_ceiling (by rw [h3]; exact le_trans hb (le_max_left _ _)))
  · obtain ⟨cs, c1, c2, _⟩ := hrun k
    have hy : yielded cs = ls.reverse.map stripTrailingCR := by
      rw [yielded_of_run cs k true _ _ _ hk c2, expectedObs_lines_joinLines ls hne hls2]
      exact List.map_congr_left (fun b _ => noCR_eq_stripTrailingCR b)
    refine ⟨s, cs, h1, c1, hy, ?_⟩
    have := congrArg List.length hy
    simpa [yielded] using this

/-- Witness for C2: the three lines `line-0`, `line-1`, `line-2` with nil options and with
`ChunkSize` 10, `BufferSize` 100 and suppression on: both runs yield `line-2`, `line-1`,
`line-0` from three calls that return true. -/
theorem C2_witness :
    ((1 ≤ [bytesOf "line-0", bytesOf "line-1", bytesOf "line-2"].length) ∧
      (∀ l ∈ [bytesOf "line-0", bytesOf "line-1", bytesOf "line-2"],
        (10 : UInt8) ∉ l ∧ stripTrailingCR l ≠ []) ∧
      joinLines [bytesOf "line-0", bytesOf "line-1", bytesOf "line-2"] =
        bytesOf "line-0\nline-1\nline-2\n" ∧
      ((joinLines [bytesOf "line-0", bytesOf "line-1", bytesOf "line-2"]).length : Int)
        ≤ 100) ∧
    (∃ s cs, NewScanner
        (bytesReader (joinLines [bytesOf "line-0", bytesOf "line-1", bytesOf "line-2"]))
        (joinLines [bytesOf "line-0", bytesOf "line-1", bytesOf "line-2"]).length
        none = some s ∧
      calls 43 22 s = some cs ∧
      yielded cs = [bytesOf "line-2", bytesOf "line-1", bytesOf "line-0"] ∧
      (cs.filter fun c => c.1).length = 3) ∧
    (∃ s cs, NewScanner
        (bytesReader (joinLines [bytesOf "line-0", bytesOf "line-1", bytesOf "line-2"]))
        (joinLines [bytesOf "line-0", bytesOf "line-1", bytesOf "line-2"]).length
        (some ⟨10, 100, true⟩) = some s ∧
      calls 43 22 s = some cs ∧
      yielded cs = [bytesOf "line-2", bytesOf "line-1", bytesOf "line-0"] ∧
      (cs.filter fun c => c.1).length = 3) := by
  obtain ⟨s, cs, h1, h2, h3, h4⟩ := C2_lines_of_terminated_source
    (bytesReader (joinLines [bytesOf "line-0", bytesOf "line-1", bytesOf "line-2"]))
    [bytesOf "line-0", bytesOf "line-1", bytesOf "line-2"] none (by decide) (by decide)
    (bytesReader_reads _) rfl (by decide) (by decide) 43 22 (by decide) (by decide)
  obtain ⟨t, ct, g1, g2, g3, g4⟩ := C2_lines_of_terminated_source
    (bytesReader (joinLines [bytesOf "line-0", bytesOf "line-1", bytesOf "line-2"]))
    [bytesOf "line-0", bytesOf "line-1", bytesOf "line-2"] (some ⟨10, 100, true⟩)
    (by decide) (by decide) (bytesReader_reads _) rfl (by decide) (by decide) 43 22
    (by decide) (by decide)
  exact ⟨by decide, ⟨s, cs, h1, h2, by rw [h3]; decide, h4⟩,
    ⟨t, ct, g1, g2, by rw [g3]; decide, g4⟩⟩

theorem expectedObs_shape (ign : Bool) (p : List UInt8) :
    ((expectedObs ign p).map fun o => (o.1, o.2.2)) =
      List.replicate ((expectedObs ign p).length - 1) (true, none) ++ [(true, some .EOF)] := by
  simp only [expectedObs, List.map_append, List.map_map, List.map_cons, List.map_nil,
    List.length_append, List.length_map, List.length_singleton, Nat.add_sub_cancel]
  congr 1
  rw [List.eq_replicate_iff]
  refine ⟨by simp, ?_⟩
  intro b hb
  simp only [List.mem_map, Function.comp] at hb
  obtain ⟨l, _, rfl⟩ := hb
  rfl

theorem expectedObs_eof_line (ign : Bool) (p : List UInt8) :
    ∀ o ∈ expectedObs ign p, o.2.2 = some .EOF → o.2.1 = headLine p := by
  intro o ho he
  simp only [expectedObs, List.mem_append, List.mem_map, List.mem_singleton] at ho
  rcases ho with ⟨l, _, rfl⟩ | rfl
  · simp at he
  · rfl

/-- C3: on a non-empty source whose reads succeed, with a chunk size of at least 1 and a
(sanitized) ceiling of at least the source length, there is a `K ≥ 1` such that the first
`K` calls return true and every later call returns false; `Err()` is nil after the first
`K - 1` calls and `io.EOF` after the `K`-th and after every false result; the line held
from the `K`-th call on is the first segment of the source. -/
theorem C3_true_calls_then_eof (r : ReaderAt) (src : List UInt8) (opt : Option Options)
    (hsrc : src ≠ []) (hr : Reads r src) (hc : 1 ≤ (opt.getD defaultOptions).ChunkSize)
    (hb : (src.length : Int) ≤
      max (opt.getD defaultOptions).BufferSize (opt.getD defaultOptions).ChunkSize) :
    ∃ s K, NewScanner r src.length opt = some s ∧ 1 ≤ K ∧ K ≤ src.length + 1 ∧
      ∀ fuel k, 2 * src.length < fuel →
        ∃ cs, calls fuel k s = some cs ∧
          (cs.map fun c => (c.1, Err c.2)) =
            specRun k (List.replicate (K - 1) (true, none) ++ [(true, some .EOF)])
              (false, some .EOF) ∧
          ∀ c ∈ cs, Err c.2 = some .EOF → Bytes c.2 = noCR ((src.splitOn 10).headD []) := by
  obtain ⟨s, h1, _, h3, h4⟩ := run_of_new r src opt hsrc hr hc
  refine ⟨s, (expectedObs (opt.getD defaultOptions).IgnoreEmptyLine src).length, h1,
    expectedObs_length_pos _ _, expectedObs_length_le _ _, ?_⟩
  intro fuel k hf
  rcases h4 fuel hf with ⟨j, _, ht, _⟩ | ⟨_, hrun⟩
  · exact absurd ht (not_tight_of_ceiling (by rw [h3]; exact hb))
  · obtain ⟨cs, c1, c2, _⟩ := hrun k
    refine ⟨cs, c1, ?_, ?_⟩
    · have := congrArg (List.map fun o : Bool × List UInt8 × Option Error => (o.1, o.2.2)) c2
      rw [specRun_map, expectedObs_shape, List.map_map] at this
      exact this
    · intro c hcm he
      have hm : observe c ∈ cs.map observe := List.mem_map_of_mem _ hcm
      rw [c2] at hm
      rcases mem_specRun hm with h | h
      · exact expectedObs_eof_line _ _ _ h he
      · have := congrArg (fun o : Bool × List UInt8 × Option Error => o.2.1) h
        exact this

/-- Witness for C3: the source of the tests with nil options; its five first calls give
`line-2` and `line-1` with a nil error, `line-0` with `io.EOF`, then false twice. -/
theorem C3_witness :
    (bytesOf "line-0\nline-1\nline-2\n" ≠ [] ∧
      1 ≤ ((none : Option Options).getD defaultOptions).ChunkSize ∧
      ((bytesOf "line-0\nline-1\nline-2\n").length : Int) ≤
        max ((none : Option Options).getD defaultOptions).BufferSize
          ((none : Option Options).getD defaultOptions).ChunkSize) ∧
    (∃ s K, NewScanner (bytesReader (bytesOf "line-0\nline-1\nline-2\n"))
        (bytesOf "line-0\nline-1\nline-2\n").length none = some s ∧ 1 ≤ K ∧
      K ≤ (bytesOf "line-0\nline-1\nline-2\n").length + 1 ∧
      ∀ fuel k, 2 * (bytesOf "line-0\nline-1\nline-2\n").length < fuel →
        ∃ cs, calls fuel k s = some cs ∧
          (cs.map fun c => (c.1, Err c.2)) =
            specRun k (List.replicate (K - 1) (true, none) ++ [(true, some .EOF)])
              (false, some .EOF) ∧
          ∀ c ∈ cs, Err c.2 = some .EOF →
            Bytes c.2 = noCR (((bytesOf "line-0\nline-1\nline-2\n").splitOn 10).headD [])) ∧
    ∃ s cs, NewScanner (bytesReader (bytesOf "line-0\nline-1\nline-2\n")) 21 none = some s ∧
      calls 43 5 s = some cs ∧
      cs.map observe = [(true, bytesOf "line-2", none), (true, bytesOf "line-1", none),
        (true, bytesOf "line-0", some .EOF), (false, bytesOf "line-0", some .EOF),
        (false, bytesOf "line-0", some .EOF)] :=
  ⟨by decide, C3_true_calls_then_eof (bytesReader (bytesOf "line-0\nline-1\nline-2\n"))
    (bytesOf "line-0\nline-1\nline-2\n") none (by decide) (bytesReader_reads _) (by decide)
    (by decide), _, _, rfl, rfl, by decide⟩

/-- C4: with suppression off the code yields the empty segment after the final newline
first. On the source `\nline-0\nline-1\nline-2\n` with the default chunk size and ceiling
five calls return true: the empty line, `line-2`, `line-1`, `line-0` and the empty line
with `io.EOF`, so the lines are not `line-2`, `line-1`, `line-0` and the empty line. On
the source and options of `TestReverseFile` (`line-0\nline-1\nline-2\n`, `ChunkSize` 10,
`BufferSize` 100, suppression off) four calls return true, the first with the empty line,
where the test records `line-2`, `line-1`, `line-0`. -/
theorem C4_empty_line_is_yielded_first :
    (∃ s cs, NewScanner (bytesReader (bytesOf "\nline-0\nline-1\nline-2\n")) 22
        (some ⟨DefaultChunkSize, DefaultBufferSize, false⟩) = some s ∧
      calls 45 6 s = some cs ∧
      cs.map observe = [(true, [], none), (true, bytesOf "line-2", none),
        (true, bytesOf "line-1", none), (true, bytesOf "line-0", none),
        (true, [], some .EOF), (false, [], some .EOF)] ∧
      yielded cs ≠ [bytesOf "line-2", bytesOf "line-1", bytesOf "line-0", []]) ∧
    (∃ s cs, NewScanner (fileReader (bytesOf "line-0\nline-1\nline-2\n")) 21
        (some ⟨10, 100, false⟩) = some s ∧
      calls 43 5 s = some cs ∧
      cs.map observe = [(true, [], none), (true, bytesOf "line-2", none),
        (true, bytesOf "line-1", none), (true, bytesOf "line-0", some .EOF),
        (false, bytesOf "line-0", some .EOF)] ∧
      yielded cs ≠ [bytesOf "line-2", bytesOf "line-1", bytesOf "line-0"]) :=
  ⟨⟨_, _, rfl, rfl, by decide, by decide⟩, ⟨_, _, rfl, rfl, by decide, by decide⟩⟩

/-- The run on the source `\nline-0\nline-1\nline-2\n` of length 22 with suppression off
and the default chunk size and ceiling, for every fuel above 44 and every number of calls:
every call returns, the calls that return true yield the empty line, `line-2`, `line-1`,
`line-0` and the empty line in that order, `Err()` is nil after the first four and
`io.EOF` after the final empty line, and every later call returns false. -/
theorem blank_led_source_run (fuel k : Nat) (hf : 44 < fuel) :
    ∃ s cs, NewScanner (bytesReader (bytesOf "\nline-0\nline-1\nline-2\n")) 22
        (some ⟨DefaultChunkSize, DefaultBufferSize, false⟩) = some s ∧
      calls fuel k s = some cs ∧
      cs.map observe = specRun k [(true, [], none), (true, bytesOf "line-2", none),
        (true, bytesOf "line-1", none), (true, bytesOf "line-0", none),
        (true, [], some .EOF)] (false, [], some .EOF) := by
  obtain ⟨s, h1, _, h3, h4⟩ := run_of_new (bytesReader (bytesOf "\nline-0\nline-1\nline-2\n"))
    (bytesOf "\nline-0\nline-1\nline-2\n")
    (some ⟨DefaultChunkSize, DefaultBufferSize, false⟩) (by decide) (bytesReader_reads _)
    (by decide)
  simp only [Option.getD_some] at h3 h4
  have hlen : (bytesOf "\nline-0\nline-1\nline-2\n").length = 22 := by decide
  rcases h4 fuel (by rw [hlen]; omega) with ⟨j, _, ht, _⟩ | ⟨_, hrun⟩
  · refine absurd ht (not_tight_of_ceiling ?_)
    rw [h3, hlen]; decide
  · obtain ⟨cs, c1, c2, _⟩ := hrun k
    refine ⟨s, cs, ?_, c1, ?_⟩
    · rw [← h1, hlen]; rfl
    · rw [c2]
      have e1 : expectedObs false (bytesOf "\nline-0\nline-1\nline-2\n") =
          [(true, [], none), (true, bytesOf "line-2", none), (true, bytesOf "line-1", none),
            (true, bytesOf "line-0", none), (true, [], some .EOF)] := by decide
      have e2 : headLine (bytesOf "\nline-0\nline-1\nline-2\n") = [] := by decide
      rw [e1, e2]

/-- What one pass of the loop does to the error and the configuration, for any reader
and any state: a false result carries an error, the ceiling and the suppression flag
stay, the chunk size does not grow. -/
theorem scanIter_facts (s s1 : Scanner) :
    (scanIter s = .ret false s1 → s1.err ≠ none) ∧
    (∀ ok, scanIter s = .ret ok s1 → OptLe s1 s) ∧
    (scanIter s = .continue s1 → OptLe s1 s) := by
  by_cases h1 : 0 ≤ LastIndexByte s.buf1.data 10
  · by_cases h2 : (s.opt.IgnoreEmptyLine &&
      (noCR (s.buf1.data.drop (LastIndexByte s.buf1.data 10 + 1).toNat)).length == 0) = true
    · simp only [scanIter, h1, h2, if_true]
      refine ⟨fun h => ?_, fun ok h => ?_, fun h => ?_⟩ <;> cases h
      exact ⟨rfl, rfl, le_refl _⟩
    · simp only [scanIter, h1, h2, if_true]
      refine ⟨fun h => ?_, fun ok h => ?_, fun h => ?_⟩ <;> cases h
      exact ⟨rfl, rfl, le_refl _⟩
  · by_cases h3 : s.last = 0
    · simp only [scanIter, h1, h3, if_true, if_false]
      refine ⟨fun h => ?_, fun ok h => ?_, fun h => ?_⟩ <;> cases h
      exact ⟨rfl, rfl, le_refl _⟩
    · by_cases h4 : s.opt.ChunkSize > s.last
      · by_cases h5 : s.last + (s.buf1.data.length : Int) > s.opt.BufferSize
        · simp only [scanIter, h1, h3, h4, h5, if_true, if_false]
          refine ⟨fun h => ?_, fun ok h => ?_, fun h => ?_⟩ <;> cases h
          · simp
          · exact ⟨rfl, rfl, le_of_lt h4⟩
        · by_cases h6 : s.last < 0
          · simp only [scanIter, h1, h3, h4, h5, h6, if_true, if_false]
            refine ⟨fun h => ?_, fun ok h => ?_, fun h => ?_⟩ <;> cases h
          · rcases hr : (s.r s.last.toNat (s.last - s.last)).err with _ | e
            · simp only [scanIter, h1, h3, h4, h5, h6, hr, if_true, if_false]
              refine ⟨fun h => ?_, fun ok h => ?_, fun h => ?_⟩ <;> cases h
              exact ⟨rfl, rfl, le_of_lt h4⟩
            · cases e <;>
              · simp only [scanIter, h1, h3, h4, h5, h6, hr, if_true, if_false]
                refine ⟨fun h => ?_, fun ok h => ?_, fun h => ?_⟩ <;> cases h <;>
                  first | exact ⟨rfl, rfl, le_of_lt h4⟩ | simp [hr]
      · by_cases h5 : s.opt.ChunkSize + (s.buf1.data.length : Int) > s.opt.BufferSize
        · simp only [scanIter, h1, h3, h4, h5, if_true, if_false]
          refine ⟨fun h => ?_, fun ok h => ?_, fun h => ?_⟩ <;> cases h
          · simp
          · exact ⟨rfl, rfl, le_refl _⟩
        · by_cases h6 : s.opt.ChunkSize < 0
          · simp only [scanIter, h1, h3, h4, h5, h6, if_true, if_false]
            refine ⟨fun h => ?_, fun ok h => ?_, fun h => ?_⟩ <;> cases h
          · rcases hr : (s.r s.opt.ChunkSize.toNat (s.last - s.opt.ChunkSize)).err with _ | e
            · simp only [scanIter, h1, h3, h4, h5, h6, hr, if_true, if_false]
              refine ⟨fun h => ?_, fun ok h => ?_, fun h => ?_⟩ <;> cases h
              exact ⟨rfl, rfl, le_refl _⟩
            · cases e <;>
              · simp only [scanIter, h1, h3, h4, h5, h6, hr, if_true, if_false]
                refine ⟨fun h => ?_, fun ok h => ?_, fun h => ?_⟩ <;> cases h <;>
                  first | exact ⟨rfl, rfl, le_refl _⟩ | simp [hr]

theorem OptLe_trans {s2 s1 s : Scanner} (h2 : OptLe s2 s1) (h1 : OptLe s1 s) : OptLe s2 s :=
  ⟨h2.1.trans h1.1, h2.2.1.trans h1.2.1, le_trans h2.2.2 h1.2.2⟩

theorem scanLoop_facts (fuel : Nat) : ∀ (s s1 : Scanner) (ok : Bool),
    scanLoop fuel s = .returned ok s1 → (ok = false → s1.err ≠ none) ∧ OptLe s1 s := by
  induction fuel with
  | zero => intro s s1 ok h; simp [scanLoop] at h
  | succ fuel ih =>
    intro s s1 ok h
    simp only [scanLoop] at h
    cases hi : scanIter s with
    | ret ok2 s2 =>
      rw [hi] at h
      simp only [Outcome.returned.injEq] at h
      obtain ⟨rfl, rfl⟩ := h
      have := scanIter_facts s s2
      exact ⟨fun hf => this.1 (hf ▸ hi), this.2.1 _ hi⟩
    | «continue» s2 =>
      rw [hi] at h
      have h2 := ih s2 s1 ok h
      exact ⟨h2.1, OptLe_trans h2.2 ((scanIter_facts s s2).2.2 hi)⟩
    | panic => rw [hi] at h; simp at h

theorem Scan_facts (fuel : Nat) (s s1 : Scanner) (ok : Bool)
    (h : Scan fuel s = .returned ok s1) : (ok = false → s1.err ≠ none) ∧ OptLe s1 s := by
  by_cases he : s.err = none
  · have : Scan fuel s = scanLoop fuel s := by simp [Scan, he]
    rw [this] at h
    exact scanLoop_facts fuel s s1 ok h
  · rw [Scan_of_err fuel s he] at h
    simp only [Outcome.returned.injEq] at h
    obtain ⟨rfl, rfl⟩ := h
    exact ⟨fun _ => he, rfl, rfl, le_refl _⟩

/-- C5: for every scanner state and every reader, if a `Scan` call returns false then
the error it leaves is not nil, and any number of later calls all return false and leave
the scanner, and with it `Err()`, exactly as that first false result left it. -/
theorem C5_false_result_is_sticky (fuel : Nat) (s s1 : Scanner)
    (h : Scan fuel s = .returned false s1) :
    Err s1 ≠ none ∧
    ∀ fuel2 k, ∃ cs, calls fuel2 k s1 = some cs ∧ cs.length = k ∧
      ∀ c ∈ cs, c.1 = false ∧ Err c.2 = Err s1 ∧ c.2.line = s1.line := by
  have he := (Scan_facts fuel s s1 false h).1 rfl
  refine ⟨he, fun fuel2 k => ⟨_, calls_of_err fuel2 s1 he k, by simp, ?_⟩⟩
  intro c hc
  rw [List.eq_of_mem_replicate hc]
  exact ⟨rfl, rfl, rfl⟩

/-- Witness for C5: the first call on a scanner over a reader whose reads fail returns false
with the error of the reader. -/
theorem C5_witness :
    NewScanner failingReader 3 none = some failingStart ∧
    Scan 5 failingStart = .returned false failingEnd ∧
    (Err failingEnd ≠ none ∧
      ∀ fuel2 k, ∃ cs, calls fuel2 k failingEnd = some cs ∧ cs.length = k ∧
        ∀ c ∈ cs, c.1 = false ∧ Err c.2 = Err failingEnd ∧ c.2.line = failingEnd.line) :=
  ⟨rfl, rfl, C5_false_result_is_sticky 5 failingStart failingEnd rfl⟩

/-- C9: `NewScanner` returns no scanner exactly when `size < 1`, whatever the reader and
the options (nil options included); for every `size ≥ 1` it returns a scanner over that
reader whose remaining count is `size`, whose pending buffer and current line are empty
and whose error is unset. -/
theorem C9_new_scanner_nil_iff (r : ReaderAt) (size : Int) (opt : Option Options) :
    (NewScanner r size opt = none ↔ size < 1) ∧
    (1 ≤ size → ∃ s, NewScanner r size opt = some s ∧ s.r = r ∧ s.last = size ∧
      s.buf1.data = [] ∧ Bytes s = [] ∧ Len s = 0 ∧ Err s = none) := by
  by_cases h : size < 1
  · exact ⟨by simp [NewScanner, h], fun h1 => by omega⟩
  · refine ⟨by simp [NewScanner, h], fun _ => ?_⟩
    simp only [NewScanner, h, if_false]
    exact ⟨_, rfl, rfl, rfl, rfl, rfl, rfl, rfl⟩

/-- Witness for C9: size 0 with nil options, and size 21 with the options of the tests. -/
theorem C9_witness :
    ((NewScanner failingReader 0 none = none ↔ (0 : Int) < 1) ∧
      ((1 : Int) ≤ 0 → ∃ s, NewScanner failingReader 0 none = some s ∧ s.r = failingReader ∧
        s.last = 0 ∧ s.buf1.data = [] ∧ Bytes s = [] ∧ Len s = 0 ∧ Err s = none)) ∧
    (1 : Int) ≤ 21 ∧
    ((NewScanner failingReader 21 (some ⟨10, 100, true⟩) = none ↔ (21 : Int) < 1) ∧
      ((1 : Int) ≤ 21 → ∃ s, NewScanner failingReader 21 (some ⟨10, 100, true⟩) = some s ∧
        s.r = failingReader ∧ s.last = 21 ∧ s.buf1.data = [] ∧ Bytes s = [] ∧ Len s = 0 ∧
        Err s = none)) :=
  ⟨C9_new_scanner_nil_iff failingReader 0 none, by decide,
    C9_new_scanner_nil_iff failingReader 21 (some ⟨10, 100, true⟩)⟩

theorem NewScanner_opt (r : ReaderAt) (size : Int) (opt : Option Options) (s : Scanner)
    (h : NewScanner r size opt = some s) :
    s.opt.ChunkSize = (opt.getD defaultOptions).ChunkSize ∧
    s.opt.IgnoreEmptyLine = (opt.getD defaultOptions).IgnoreEmptyLine ∧
    s.opt.BufferSize =
      (if (opt.getD defaultOptions).BufferSize < (opt.getD defaultOptions).ChunkSize
        then (opt.getD defaultOptions).ChunkSize else (opt.getD defaultOptions).BufferSize) := by
  by_cases hs : size < 1
  · simp [NewScanner, hs] at h
  · cases opt with
    | none =>
      simp only [NewScanner, hs, if_false, Option.some.injEq] at h
      subst h
      have hd : ¬ (DefaultBufferSize < DefaultChunkSize) := by decide
      simp [hd, defaultOptions]
    | some o =>
      simp only [NewScanner, hs, if_false, Option.some.injEq] at h
      subst h
      simp only [Option.getD_some]
      by_cases hb : o.BufferSize < o.ChunkSize
      · simp [hb]
      · simp [hb]

/-- C10: the ceiling is at least the chunk size in every reachable scanner state.
`NewScanner` with nil options configures chunk size 1024, ceiling 1048576 and suppression
on; with supplied options it keeps chunk size and suppression flag and raises a ceiling
below the chunk size to exactly the chunk size, leaving any other ceiling unchanged; every
returning `Scan` call keeps the ceiling and does not increase the chunk size. -/
theorem C10_ceiling_ge_chunk :
    (∀ r size s, NewScanner r size none = some s → s.opt = ⟨1024, 1048576, true⟩) ∧
    (∀ r size o s, NewScanner r size (some o) = some s →
      s.opt.ChunkSize = o.ChunkSize ∧ s.opt.IgnoreEmptyLine = o.IgnoreEmptyLine ∧
      s.opt.BufferSize = (if o.BufferSize < o.ChunkSize then o.ChunkSize else o.BufferSize)) ∧
    (∀ fuel s s1 ok, Scan fuel s = .returned ok s1 →
      s1.opt.BufferSize = s.opt.BufferSize ∧ s1.opt.ChunkSize ≤ s.opt.ChunkSize) ∧
    (∀ s, Reachable s → s.opt.ChunkSize ≤ s.opt.BufferSize) := by
  refine ⟨?_, ?_, ?_, ?_⟩
  · intro r size s h
    by_cases hs : size < 1
    · simp [NewScanner, hs] at h
    · simp only [NewScanner, hs, if_false, Option.some.injEq] at h
      subst h
      have hd : ¬ (DefaultBufferSize < DefaultChunkSize) := by decide
      simp only [hd, if_false]
      rfl
  · intro r size o s h
    exact NewScanner_opt r size (some o) s h
  · intro fuel s s1 ok h
    have := (Scan_facts fuel s s1 ok h).2
    exact ⟨this.1, this.2.2⟩
  · intro s hs
    induction hs with
    | new r size opt s h =>
      obtain ⟨h1, _, h3⟩ := NewScanner_opt r size opt s h
      rw [h1, h3]
      split_ifs <;> omega
    | scan fuel s s1 ok _ h ih =>
      have := (Scan_facts fuel s s1 ok h).2
      have h1 := this.1
      have h2 := this.2.2
      omega

/-- Witness for C10: a scanner built with chunk size 7 and ceiling 2, and the state the first
call leaves on the scanner over the failing reader. -/
theorem C10_witness :
    NewScanner failingReader 3 (some ⟨7, 2, false⟩) =
      some { failingStart with opt := ⟨7, 7, false⟩ } ∧
    ({ failingStart with opt := ⟨7, 7, false⟩ } : Scanner).opt.ChunkSize ≤
      ({ failingStart with opt := ⟨7, 7, false⟩ } : Scanner).opt.BufferSize ∧
    failingEnd.opt.ChunkSize ≤ failingEnd.opt.BufferSize :=
  ⟨rfl,
    C10_ceiling_ge_chunk.2.2.2 _ (Reachable.new failingReader 3 (some ⟨7, 2, false⟩) _ rfl),
    C10_ceiling_ge_chunk.2.2.2 _ (Reachable.scan 5 failingStart failingEnd false
      (Reachable.new failingReader 3 none _ rfl) rfl)⟩

theorem overflow_visible (cs : List (Bool × Scanner)) (k : Nat)
    (e : List (Bool × List UInt8 × Option Error))
    (h : cs.map observe = specRun k e (false, [], some .ErrOverflow)) (hk : e.length < k) :
    ∃ c ∈ cs, Err c.2 = some .ErrOverflow := by
  have hm : (false, ([] : List UInt8), some Error.ErrOverflow) ∈ cs.map observe := by
    rw [h, specRun]
    refine List.mem_append_right _ ?_
    rw [List.mem_replicate]
    exact ⟨by omega, rfl⟩
  obtain ⟨c, hc, he⟩ := List.mem_map.mp hm
  exact ⟨c, hc, congrArg (fun o : Bool × List UInt8 × Option Error => o.2.2) he⟩

theorem eof_run_facts (cs : List (Bool × Scanner)) (k : Nat) (ign : Bool) (p : List UInt8)
    (h : cs.map observe = specRun k (expectedObs ign p) (false, headLine p, some .EOF))
    (hk : p.length < k) :
    (∀ c ∈ cs, Err c.2 ≠ some .ErrOverflow) ∧ ∃ c ∈ cs, Err c.2 = some .EOF := by
  constructor
  · intro c hc he
    have hm : observe c ∈ cs.map observe := List.mem_map_of_mem _ hc
    rw [h] at hm
    rcases mem_specRun hm with h1 | h1
    · simp only [expectedObs, List.mem_append, List.mem_map, List.mem_singleton] at h1
      rcases h1 with ⟨l, _, hl⟩ | hl
      · have := congrArg (fun o : Bool × List UInt8 × Option Error => o.2.2) hl
        simp only [observe] at this
        rw [he] at this; simp at this
      · have := congrArg (fun o : Bool × List UInt8 × Option Error => o.2.2) hl
        simp only [observe] at this
        rw [he] at this; simp at this
    · have := congrArg (fun o : Bool × List UInt8 × Option Error => o.2.2) h1
      simp only [observe] at this
      rw [he] at this; simp at this
  · have hl := expectedObs_length_le ign p
    have hm : (true, headLine p, some Error.EOF) ∈ cs.map observe := by
      rw [h, specRun_full _ (by omega)]
      refine List.mem_append_left _ ?_
      simp [expectedObs]
    obtain ⟨c, hc, he⟩ := List.mem_map.mp hm
    exact ⟨c, hc, congrArg (fun o : Bool × List UInt8 × Option Error => o.2.2) he⟩

/-- The two ways a run of more calls than the source has bytes can go. -/
theorem run_dichotomy (r : ReaderAt) (src : List UInt8) (chunk buf : Int) (ign : Bool)
    (hsrc : src ≠ []) (hr : Reads r src) (hc : 1 ≤ chunk) :
    ∃ s, NewScanner r src.length (some ⟨chunk, buf, ign⟩) = some s ∧
      s.opt.BufferSize = max buf chunk ∧
      ∀ fuel k, 2 * src.length < fuel → src.length < k →
        ∃ cs, calls fuel k s = some cs ∧
          ((Tight chunk (max buf chunk) src ∧ ∃ c ∈ cs, Err c.2 = some .ErrOverflow) ∨
            (yielded cs = ((expectedObs ign src).map fun o => o.2.1) ∧
              (∀ c ∈ cs, Err c.2 ≠ some .ErrOverflow) ∧ ∃ c ∈ cs, Err c.2 = some .EOF)) := by
  obtain ⟨s, h1, _, h3, h4⟩ := run_of_new r src (some ⟨chunk, buf, ign⟩) hsrc hr hc
  simp only [Option.getD_some] at h3 h4
  refine ⟨s, h1, h3, ?_⟩
  intro fuel k hf hk
  rcases h4 fuel hf with ⟨j, hj, ht, hrun⟩ | ⟨_, hrun⟩
  · obtain ⟨cs, c1, c2, _⟩ := hrun k
    have hl := expectedObs_length_le ign src
    refine ⟨cs, c1, Or.inl ⟨by rw [← h3]; exact ht, overflow_visible cs k _ c2 ?_⟩⟩
    rw [List.length_take]; omega
  · obtain ⟨cs, c1, c2, _⟩ := hrun k
    exact ⟨cs, c1, Or.inr ⟨yielded_of_run cs k ign src _ _ hk c2, eof_run_facts cs k ign src c2 hk⟩⟩

/-- C6, counterexample: over the source `x\nab` with ceiling 3 and suppression off, the
scanner with chunk size 1 yields `ab` and `x`, the one with chunk size 2 stops with
`ErrOverflow` in its first call and yields nothing. -/
theorem C6_counterexample :
    ∃ s1 s2 cs1 cs2,
      NewScanner (bytesReader (bytesOf "x\nab")) 4 (some ⟨1, 3, false⟩) = some s1 ∧
      NewScanner (bytesReader (bytesOf "x\nab")) 4 (some ⟨2, 3, false⟩) = some s2 ∧
      calls 9 3 s1 = some cs1 ∧ calls 9 3 s2 = some cs2 ∧
      cs1.map observe = [(true, bytesOf "ab", none), (true, bytesOf "x", some .EOF),
        (false, bytesOf "x", some .EOF)] ∧
      cs2.map observe = [(false, [], some .ErrOverflow), (false, [], some .ErrOverflow),
        (false, [], some .ErrOverflow)] ∧
      yielded cs1 ≠ yielded cs2 :=
  ⟨_, _, _, _, rfl, rfl, rfl, rfl, by decide, by decide, by decide⟩

/-- C6, amended: for every non-empty source whose reads succeed, every suppression
setting and every ceiling passed to construction, two scanners that differ only in their
chunk size (both at least 1) yield the identical sequence of lines whenever neither of
them stops with `ErrOverflow`, in particular whenever the ceiling is at least the source
length. -/
theorem C6_chunk_size_independence (r : ReaderAt) (src : List UInt8) (c1 c2 buf : Int)
    (ign : Bool) (hsrc : src ≠ []) (hr : Reads r src) (h1 : 1 ≤ c1) (h2 : 1 ≤ c2)
    (fuel k : Nat) (hf : 2 * src.length < fuel) (hk : src.length < k) :
    ∃ s1 s2 cs1 cs2,
      NewScanner r src.length (some ⟨c1, buf, ign⟩) = some s1 ∧
      NewScanner r src.length (some ⟨c2, buf, ign⟩) = some s2 ∧
      calls fuel k s1 = some cs1 ∧ calls fuel k s2 = some cs2 ∧
      ((∀ c ∈ cs1 ++ cs2, Err c.2 ≠ some .ErrOverflow) → yielded cs1 = yielded cs2) ∧
      ((src.length : Int) ≤ buf → yielded cs1 = yielded cs2) := by
  obtain ⟨s1, n1, b1, r1⟩ := run_dichotomy r src c1 buf ign hsrc hr h1
  obtain ⟨s2, n2, b2, r2⟩ := run_dichotomy r src c2 buf ign hsrc hr h2
  obtain ⟨cs1, e1, d1⟩ := r1 fuel k hf hk
  obtain ⟨cs2, e2, d2⟩ := r2 fuel k hf hk
  refine ⟨s1, s2, cs1, cs2, n1, n2, e1, e2, ?_, ?_⟩
  · intro hno
    rcases d1 with ⟨_, c, hc, he⟩ | ⟨y1, _, _⟩
    · exact absurd he (hno c (List.mem_append_left _ hc))
    · rcases d2 with ⟨_, c, hc, he⟩ | ⟨y2, _, _⟩
      · exact absurd he (hno c (List.mem_append_right _ hc))
      · rw [y1, y2]
  · intro hb
    rcases d1 with ⟨ht, _⟩ | ⟨y1, _, _⟩
    · exact absurd ht (not_tight_of_ceiling (le_trans hb (le_max_left _ _)))
    · rcases d2 with ⟨ht, _⟩ | ⟨y2, _, _⟩
      · exact absurd ht (not_tight_of_ceiling (le_trans hb (le_max_left _ _)))
      · rw [y1, y2]

/-- Witness for C6: chunk sizes 1 and 10000 over the source `x\nab\r\n\ncd` with ceiling 4. -/
theorem C6_witness :
    (bytesOf "x\nab\r\n\ncd" ≠ [] ∧ (1 : Int) ≤ 1 ∧ (1 : Int) ≤ 10000) ∧
    ∃ s1 s2 cs1 cs2,
      NewScanner (bytesReader (bytesOf "x\nab\r\n\ncd")) (bytesOf "x\nab\r\n\ncd").length
        (some ⟨1, 4, true⟩) = some s1 ∧
      NewScanner (bytesReader (bytesOf "x\nab\r\n\ncd")) (bytesOf "x\nab\r\n\ncd").length
        (some ⟨10000, 4, true⟩) = some s2 ∧
      calls 19 10 s1 = some cs1 ∧ calls 19 10 s2 = some cs2 ∧
      ((∀ c ∈ cs1 ++ cs2, Err c.2 ≠ some .ErrOverflow) → yielded cs1 = yielded cs2) ∧
      (((bytesOf "x\nab\r\n\ncd").length : Int) ≤ 4 → yielded cs1 = yielded cs2) :=
  ⟨by decide, C6_chunk_size_independence (bytesReader (bytesOf "x\nab\r\n\ncd"))
    (bytesOf "x\nab\r\n\ncd") 1 10000 4 true (by decide) (bytesReader_reads _) (by decide)
    (by decide) 19 10 (by decide) (by decide)⟩

theorem expectedObs_take_shape (ign : Bool) (p : List UInt8) (j : Nat)
    (hj : j < (expectedObs ign p).length) :
    (((expectedObs ign p).take j).map fun o => (o.1, o.2.2)) = List.replicate j (true, none) := by
  rw [List.map_take, expectedObs_shape, List.take_append_of_le_length (by simp; omega),
    List.take_replicate, Nat.min_eq_left (by omega)]

/-- A pass of the loop that does not return false either leaves the prospective buffer
size `bn` alone or sets it to a value within the ceiling. -/
theorem scanIter_bn (s s1 : Scanner) :
    (scanIter s = .ret true s1 ∨ scanIter s = .continue s1) →
      s1.bn = s.bn ∨ s1.bn ≤ s1.opt.BufferSize := by
  by_cases h1 : 0 ≤ LastIndexByte s.buf1.data 10
  · by_cases h2 : (s.opt.IgnoreEmptyLine &&
      (noCR (s.buf1.data.drop (LastIndexByte s.buf1.data 10 + 1).toNat)).length == 0) = true
    · simp only [scanIter, h1, h2, if_true]
      rintro (h | h) <;> cases h
      exact Or.inl rfl
    · simp only [scanIter, h1, h2, if_true]
      rintro (h | h) <;> cases h
      exact Or.inl rfl
  · by_cases h3 : s.last = 0
    · simp only [scanIter, h1, h3, if_true, if_false]
      rintro (h | h) <;> cases h
      exact Or.inl rfl
    · by_cases h4 : s.opt.ChunkSize > s.last
      · by_cases h5 : s.last + (s.buf1.data.length : Int) > s.opt.BufferSize
        · simp only [scanIter, h1, h3, h4, h5, if_true, if_false]
          rintro (h | h) <;> cases h
        · by_cases h6 : s.last < 0
          · simp only [scanIter, h1, h3, h4, h5, h6, if_true, if_false]
            rintro (h | h) <;> cases h
          · rcases hr : (s.r s.last.toNat (s.last - s.last)).err with _ | e
            · simp only [scanIter, h1, h3, h4, h5, h6, hr, if_true, if_false]
              rintro (h | h) <;> cases h
              exact Or.inr (le_of_not_gt h5)
            · cases e <;>
              · simp only [scanIter, h1, h3, h4, h5, h6, hr, if_true, if_false]
                rintro (h | h) <;> cases h <;> exact Or.inr (le_of_not_gt h5)
      · by_cases h5 : s.opt.ChunkSize + (s.buf1.data.length : Int) > s.opt.BufferSize
        · simp only [scanIter, h1, h3, h4, h5, if_true, if_false]
          rintro (h | h) <;> cases h
        · by_cases h6 : s.opt.ChunkSize < 0
          · simp only [scanIter, h1, h3, h4, h5, h6, if_true, if_false]
            rintro (h | h) <;> cases h
          · rcases hr : (s.r s.opt.ChunkSize.toNat (s.last - s.opt.ChunkSize)).err with _ | e
            · simp only [scanIter, h1, h3, h4, h5, h6, hr, if_true, if_false]
              rintro (h | h) <;> cases h
              exact Or.inr (le_of_not_gt h5)
            · cases e <;>
              · simp only [scanIter, h1, h3, h4, h5, h6, hr, if_true, if_false]
                rintro (h | h) <;> cases h <;> exact Or.inr (le_of_not_gt h5)

/-- C7, counterexample: the source `abc` has a longest line of length 3, and `3 + 1`
exceeds the ceiling 3, yet the scan with chunk size 1 yields `abc` with `io.EOF` and no
call ever reports `ErrOverflow`. -/
theorem C7_counterexample :
    (∃ seg ∈ (bytesOf "abc").splitOn 10, 3 < seg.length + 1) ∧
    ∃ s cs, NewScanner (bytesReader (bytesOf "abc")) 3 (some ⟨1, 3, false⟩) = some s ∧
      s.opt.BufferSize = 3 ∧ calls 7 3 s = some cs ∧
      cs.map observe = [(true, bytesOf "abc", some .EOF), (false, bytesOf "abc", some .EOF),
        (false, bytesOf "abc", some .EOF)] :=
  ⟨by decide, _, _, rfl, rfl, rfl, by decide⟩

/-- C7, amended: for every non-empty source whose reads succeed, every chunk size of at
least 1 and sanitized ceiling `B`, if some line after the first has length `L` with
`L + 1 > B`, or the first line has length `L > B`, then repeated `Scan` stops with the
overflow error: some `j` calls return true with a nil error and a prospective buffer size
within `B`, and the next call and all later ones return false with `ErrOverflow` and a
prospective buffer size above `B`; and no pass of the loop other than one that returns
false sets the prospective buffer size above the ceiling. -/
theorem C7_overflow_boundary (r : ReaderAt) (src : List UInt8) (chunk buf : Int) (ign : Bool)
    (hsrc : src ≠ []) (hr : Reads r src) (hc : 1 ≤ chunk)
    (hlong : (∃ seg ∈ (src.splitOn 10).tail, max buf chunk < (seg.length : Int) + 1) ∨
      max buf chunk < (((src.splitOn 10).headD []).length : Int))
    (fuel : Nat) (hf : 2 * src.length < fuel) :
    (∃ s j, NewScanner r src.length (some ⟨chunk, buf, ign⟩) = some s ∧
      s.opt.BufferSize = max buf chunk ∧ j ≤ src.length ∧
      ∀ k, ∃ cs, calls fuel k s = some cs ∧
        (cs.map fun c => (c.1, Err c.2, decide (c.2.opt.BufferSize < c.2.bn))) =
          specRun k (List.replicate j (true, none, false)) (false, some .ErrOverflow, true)) ∧
    ∀ t t1, (scanIter t = .ret true t1 ∨ scanIter t = .continue t1) →
      t1.bn = t.bn ∨ t1.bn ≤ t1.opt.BufferSize := by
  refine ⟨?_, scanIter_bn⟩
  obtain ⟨s, h1, _, h3, h4⟩ := run_of_new r src (some ⟨chunk, buf, ign⟩) hsrc hr hc
  simp only [Option.getD_some] at h3 h4
  rcases h4 fuel hf with ⟨j, hj, _, hrun⟩ | ⟨hfit, _⟩
  · have hl := expectedObs_length_le ign src
    refine ⟨s, j, h1, h3, by omega, ?_⟩
    intro k
    obtain ⟨cs, c1, c2, c3⟩ := hrun k
    refine ⟨cs, c1, ?_⟩
    have e1 : (cs.map fun c => (c.1, Err c.2, decide (c.2.opt.BufferSize < c.2.bn))) =
        (cs.map observe).map fun o => (o.1, o.2.2, decide (o.2.2 = some Error.ErrOverflow)) := by
      rw [List.map_map]
      apply List.map_congr_left
      intro c hcm
      obtain ⟨hB, hiff⟩ := c3 c hcm
      simp only [Function.comp, observe, Err, hB, decide_eq_decide.mpr hiff]
    rw [e1, c2, specRun_map]
    congr 1
    have := expectedObs_take_shape ign src j hj
    have e2 := congrArg (List.map fun o : Bool × Option Error =>
      (o.1, o.2, decide (o.2 = some Error.ErrOverflow))) this
    rw [List.map_map] at e2
    rw [show (fun o : Bool × List UInt8 × Option Error =>
        (o.1, o.2.2, decide (o.2.2 = some Error.ErrOverflow))) =
      ((fun o : Bool × Option Error => (o.1, o.2, decide (o.2 = some Error.ErrOverflow))) ∘
        fun o : Bool × List UInt8 × Option Error => (o.1, o.2.2)) from rfl, e2]
    simp
  · exfalso
    rw [h3] at hfit
    rcases hlong with ⟨seg, hm, hlt⟩ | hlt
    · have := hfit.1 seg hm; omega
    · have := hfit.2; omega

/-- Witness for C7: the source `x\nabc\ncd` with chunk size 1 and ceiling 3, whose middle line
needs four bytes together with its newline. -/
theorem C7_witness :
    (bytesOf "x\nabc\ncd" ≠ [] ∧ (1 : Int) ≤ 1 ∧
      ((∃ seg ∈ ((bytesOf "x\nabc\ncd").splitOn 10).tail, max 3 1 < (seg.length : Int) + 1) ∨
        max 3 1 < ((((bytesOf "x\nabc\ncd").splitOn 10).headD []).length : Int))) ∧
    ((∃ s j, NewScanner (bytesReader (bytesOf "x\nabc\ncd")) (bytesOf "x\nabc\ncd").length
        (some ⟨1, 3, false⟩) = some s ∧
      s.opt.BufferSize = max 3 1 ∧ j ≤ (bytesOf "x\nabc\ncd").length ∧
      ∀ k, ∃ cs, calls 17 k s = some cs ∧
        (cs.map fun c => (c.1, Err c.2, decide (c.2.opt.BufferSize < c.2.bn))) =
          specRun k (List.replicate j (true, none, false)) (false, some .ErrOverflow, true)) ∧
    ∀ t t1, (scanIter t = .ret true t1 ∨ scanIter t = .continue t1) →
      t1.bn = t.bn ∨ t1.bn ≤ t1.opt.BufferSize) :=
  ⟨⟨by decide, by decide, Or.inl ⟨bytesOf "abc", by decide, by decide⟩⟩,
    C7_overflow_boundary (bytesReader (bytesOf "x\nabc\ncd")) (bytesOf "x\nabc\ncd") 1 3 false
      (by decide) (bytesReader_reads _) (by decide)
      (Or.inl ⟨bytesOf "abc", by decide, by decide⟩) 17 (by decide)⟩

/-- C8: the code reports `ErrOverflow` on a source none of whose lines is longer than the
ceiling. Every line of the source `x\nab` (lengths 1 and 2) fits within the ceiling 3, yet
with chunk size 2 the first call already returns false with `ErrOverflow`, an empty
current line, and so does every later call. -/
theorem C8_overflow_without_long_line :
    (∀ seg ∈ (bytesOf "x\nab").splitOn 10, seg.length ≤ 3) ∧
    ∃ s cs, NewScanner (bytesReader (bytesOf "x\nab")) 4 (some ⟨2, 3, true⟩) = some s ∧
      s.opt.BufferSize = 3 ∧ calls 9 2 s = some cs ∧
      cs.map observe = [(false, [], some .ErrOverflow), (false, [], some .ErrOverflow)] :=
  ⟨by decide, _, _, rfl, rfl, rfl, by decide⟩

/-- What the overflow guard of the code does bound, for every non-empty source whose reads
succeed and every configuration with a chunk size of at least 1: if some `Scan` call sets
`Err()` to `ErrOverflow` then the source contains a line whose length plus the chunk size
is greater than the (sanitized) ceiling; and a source all of whose lines, extended by the
chunk size, fit within the ceiling is scanned to `io.EOF` without overflow. -/
theorem overflow_needs_chunk_plus_line (r : ReaderAt) (src : List UInt8) (chunk buf : Int)
    (ign : Bool) (hsrc : src ≠ []) (hr : Reads r src) (hc : 1 ≤ chunk)
    (fuel k : Nat) (hf : 2 * src.length < fuel) (hk : src.length < k) :
    ∃ s cs, NewScanner r src.length (some ⟨chunk, buf, ign⟩) = some s ∧
      s.opt.BufferSize = max buf chunk ∧ calls fuel k s = some cs ∧
      ((∃ c ∈ cs, Err c.2 = some .ErrOverflow) →
        ∃ seg ∈ src.splitOn 10, max buf chunk < chunk + (seg.length : Int)) ∧
      ((∀ seg ∈ src.splitOn 10, chunk + (seg.length : Int) ≤ max buf chunk) →
        (∀ c ∈ cs, Err c.2 ≠ some .ErrOverflow) ∧ ∃ c ∈ cs, Err c.2 = some .EOF) := by
  obtain ⟨s, h1, h2, h3⟩ := run_dichotomy r src chunk buf ign hsrc hr hc
  obtain ⟨cs, e1, d1⟩ := h3 fuel k hf hk
  refine ⟨s, cs, h1, h2, e1, ?_, ?_⟩
  · rintro ⟨c, hcm, he⟩
    rcases d1 with ⟨⟨seg, hm, hlt⟩, _⟩ | ⟨_, hno, _⟩
    · exact ⟨seg, hm, lt_of_lt_of_le hlt (min_le_left _ _)⟩
    · exact absurd he (hno c hcm)
  · intro hall
    rcases d1 with ⟨⟨seg, hm, hlt⟩, _⟩ | ⟨_, hno, heof⟩
    · have h4 := hall seg hm
      have h5 := lt_of_lt_of_le hlt (min_le_left _ _)
      omega
    · exact ⟨hno, heof⟩

/-- C11: the code returns `len(s.line) > 0`, so `IsEmpty()` is true exactly when the
current line is not empty: false on a fresh scanner, whose line has length 0, and true
after the first call on the source of the tests, whose line `line-2` has length 6. -/
theorem C11_IsEmpty_is_inverted :
    (∀ s : Scanner, IsEmpty s = true ↔ Len s ≠ 0) ∧
    ∃ s s1, NewScanner (bytesReader (bytesOf "line-0\nline-1\nline-2\n")) 21 none = some s ∧
      Len s = 0 ∧ IsEmpty s = false ∧
      Scan 5 s = .returned true s1 ∧ Bytes s1 = bytesOf "line-2" ∧ Len s1 = 6 ∧
      IsEmpty s1 = true := by
  refine ⟨fun s => ?_, _, _, rfl, rfl, rfl, rfl, by decide, by decide, by decide⟩
  simp [IsEmpty, Len, List.length_pos]

/-- C12: on the source `ab\ncd` read in chunks of 3 through a reader that fails below
offset 2, the first call yields `cd`; the second call, whose read fails, returns false and
`Err()` is the error of the reader, but the current line is still `cd`. -/
theorem C12_read_failure_keeps_line :
    ∃ s cs, NewScanner (failBelow (bytesOf "ab\ncd") 2) 5 (some ⟨3, 100, true⟩) = some s ∧
      calls 9 2 s = some cs ∧
      cs.map observe = [(true, bytesOf "cd", none), (false, bytesOf "cd", some (.other 1))] ∧
      cs.map (fun c => Len c.2) = [2, 2] :=
  ⟨_, _, rfl, rfl, by decide, by decide⟩

theorem NewScanner_state (r : ReaderAt) (size : Int) (opt : Option Options) (s : Scanner)
    (h : NewScanner r size opt = some s) :
    1 ≤ size ∧ s.r = r ∧ s.last = size ∧ s.buf1.data = [] ∧ s.line = [] ∧ s.err = none ∧
      s.bn = 0 := by
  by_cases hs : size < 1
  · simp [NewScanner, hs] at h
  · simp only [NewScanner, hs, if_false, Option.some.injEq] at h
    subst h
    exact ⟨by omega, rfl, rfl, rfl, rfl, rfl, rfl⟩

/-- A refill with a chunk size of 0 whose zero-length read succeeds changes nothing the
loop looks at. -/
theorem zero_chunk_pass (s : Scanner) (hr : ∀ off, s.r 0 off = ⟨[], none⟩)
    (hl : s.last ≠ 0) (hb : s.buf1.data = []) (hc : s.opt.ChunkSize = 0) (hpos : 0 ≤ s.last)
    (hB : 0 ≤ s.opt.BufferSize) :
    ∃ s1, scanIter s = .continue s1 ∧ s1.r = s.r ∧ s1.last = s.last ∧
      s1.buf1.data = s.buf1.data ∧ s1.err = none ∧ s1.opt = s.opt := by
  have h1 : ¬ (0 ≤ LastIndexByte s.buf1.data 10) := by rw [hb]; decide
  have h4 : ¬ (s.opt.ChunkSize > s.last) := by rw [hc]; omega
  have h5 : ¬ (s.opt.ChunkSize + (s.buf1.data.length : Int) > s.opt.BufferSize) := by
    rw [hc, hb]; simpa using hB
  have h6 : ¬ (s.opt.ChunkSize < 0) := by rw [hc]; decide
  have hrd : s.r s.opt.ChunkSize.toNat (s.last - s.opt.ChunkSize) = ⟨[], none⟩ := by
    rw [hc]; exact hr _
  simp only [scanIter, h1, hl, h4, h5, h6, hrd, if_false]
  exact ⟨_, rfl, rfl, by simp [hc], by simp [hb], rfl, rfl⟩

theorem zero_chunk_loops (fuel : Nat) : ∀ s : Scanner,
    (∀ off, s.r 0 off = ⟨[], none⟩) → s.last ≠ 0 → s.buf1.data = [] →
    s.opt.ChunkSize = 0 → 0 ≤ s.last → 0 ≤ s.opt.BufferSize →
    scanLoop fuel s = .outOfFuel := by
  induction fuel with
  | zero => intro s _ _ _ _ _ _; rfl
  | succ fuel ih =>
    intro s hr hl hb hc hpos hB
    obtain ⟨s1, h1, h2, h3, h4, _, h6⟩ := zero_chunk_pass s hr hl hb hc hpos hB
    simp only [scanLoop, h1]
    exact ih s1 (by rw [h2]; exact hr) (by rw [h3]; exact hl) (by rw [h4]; exact hb)
      (by rw [h6]; exact hc) (by rw [h3]; exact hpos) (by rw [h6]; exact hB)

/-- C20: a scanner built with size at least 1 and a chunk size of 0, over a reader whose
zero-length reads succeed: the first pass of the loop is a refill that continues and
leaves the remaining count, the pending buffer and the error as they were, and the first
`Scan` call has not returned after any number of passes. -/
theorem C20_zero_chunk_makes_no_progress (r : ReaderAt) (size buf : Int) (ign : Bool)
    (hsize : 1 ≤ size) (hr : ∀ off, r 0 off = ⟨[], none⟩) :
    ∃ s, NewScanner r size (some ⟨0, buf, ign⟩) = some s ∧
      (∃ s1, scanIter s = .continue s1 ∧ s1.last = s.last ∧
        s1.buf1.data = s.buf1.data ∧ s1.err = s.err) ∧
      ∀ fuel, Scan fuel s = .outOfFuel := by
  have hs : ¬ (size < 1) := by omega
  obtain ⟨s, hnew⟩ : ∃ s, NewScanner r size (some ⟨0, buf, ign⟩) = some s := by
    simp [NewScanner, hs]
  obtain ⟨_, f1, f2, f3, _, f5, _⟩ := NewScanner_state r size _ s hnew
  obtain ⟨o1, _, o3⟩ := NewScanner_opt r size _ s hnew
  simp only [Option.getD_some] at o1 o3
  have hB : 0 ≤ s.opt.BufferSize := by rw [o3]; split_ifs <;> omega
  have hrs : ∀ off, s.r 0 off = ⟨[], none⟩ := by rw [f1]; exact hr
  have hl : s.last ≠ 0 := by rw [f2]; omega
  have hpos : 0 ≤ s.last := by rw [f2]; omega
  refine ⟨s, hnew, ?_, ?_⟩
  · obtain ⟨s1, h1, _, h3, h4, h5, _⟩ := zero_chunk_pass s hrs hl f3 o1 hpos hB
    exact ⟨s1, h1, h3, h4, by rw [h5, f5]⟩
  · intro fuel
    have : Scan fuel s = scanLoop fuel s := by simp [Scan, f5]
    rw [this]
    exact zero_chunk_loops fuel s hrs hl f3 o1 hpos hB

/-- Witness for C20: the zero-valued options over a reader whose zero-length reads
succeed. -/
theorem C20_witness :
    ((1 : Int) ≤ 21 ∧ ∀ off, fileReader (bytesOf "line-0\nline-1\nline-2\n") 0 off = ⟨[], none⟩) ∧
    ∃ s, NewScanner (fileReader (bytesOf "line-0\nline-1\nline-2\n")) 21 (some ⟨0, 0, false⟩) =
        some s ∧
      (∃ s1, scanIter s = .continue s1 ∧ s1.last = s.last ∧
        s1.buf1.data = s.buf1.data ∧ s1.err = s.err) ∧
      ∀ fuel, Scan fuel s = .outOfFuel :=
  ⟨⟨by decide, fun _ => rfl⟩,
    C20_zero_chunk_makes_no_progress (fileReader (bytesOf "line-0\nline-1\nline-2\n")) 21 0
      false (by decide) (fun _ => rfl)⟩

theorem yielded_of_specRun (cs : List (Bool × Scanner)) (k : Nat)
    (a : List (Bool × List UInt8 × Option Error)) (l : List UInt8) (e : Option Error)
    (h : cs.map observe = specRun k a (false, l, e)) (ha : ∀ o ∈ a, o.1 = true)
    (hk : a.length ≤ k) : yielded cs = a.map fun o => o.2.1 := by
  rw [yielded_eq, h, specRun_full _ hk, List.filter_append,
    List.filter_eq_self.mpr (fun o ho => by simp [ha o ho])]
  simp

theorem yielded_subset_specRun (cs : List (Bool × Scanner)) (k : Nat)
    (a : List (Bool × List UInt8 × Option Error)) (l : List UInt8) (e : Option Error)
    (h : cs.map observe = specRun k a (false, l, e)) :
    ∀ y ∈ yielded cs, ∃ o ∈ a, y = o.2.1 := by
  intro y hy
  rw [yielded_eq, h] at hy
  simp only [List.mem_map, List.mem_filter] at hy
  obtain ⟨o, ⟨hm, hok⟩, rfl⟩ := hy
  rcases mem_specRun hm with h1 | h1
  · exact ⟨o, h1, rfl⟩
  · rw [h1] at hok; simp at hok

theorem expectedObs_line_mem (ign : Bool) (p : List UInt8) :
    ∀ o ∈ expectedObs ign p, ∃ seg ∈ p.splitOn 10, o.2.1 = noCR seg := by
  intro o ho
  cases hs : p.splitOn 10 with
  | nil => exact absurd hs (splitOn_ne_nil p)
  | cons x xs =>
    simp only [expectedObs, headLine, hs, List.tail_cons, List.headD_cons, List.mem_append,
      List.mem_map, List.mem_filter, List.mem_reverse, List.mem_singleton] at ho
    rcases ho with ⟨l, ⟨⟨seg, hseg, rfl⟩, _⟩, rfl⟩ | rfl
    · exact ⟨seg, List.mem_cons_of_mem _ hseg, rfl⟩
    · exact ⟨x, List.mem_cons_self _ _, rfl⟩

/-- C13, counterexample: the source `abc\r` has a single segment that ends in `\r` and is
followed by no `\n`; the scan yields `abc`, without the `\r`. -/
theorem C13_counterexample :
    (bytesOf "abc\r").splitOn 10 = [bytesOf "abc\r"] ∧
    ∃ s cs, NewScanner (bytesReader (bytesOf "abc\r")) 4 none = some s ∧
      calls 9 2 s = some cs ∧
      cs.map observe = [(true, bytesOf "abc", some .EOF), (false, bytesOf "abc", some .EOF)] ∧
      yielded cs = [bytesOf "abc"] :=
  ⟨by decide, _, _, rfl, rfl, by decide, by decide⟩

/-- C13, amended: for every non-empty source whose reads succeed and every configuration
with a chunk size of at least 1, every yielded line is a segment of the source with at
most one trailing `\r` removed, and the `\r` is removed from every yielded segment that
ends in `\r`, whether a `\n` follows it in the source or not. -/
theorem C13_cr_removed_from_every_segment (r : ReaderAt) (src : List UInt8)
    (opt : Option Options) (hsrc : src ≠ []) (hr : Reads r src)
    (hc : 1 ≤ (opt.getD defaultOptions).ChunkSize) (fuel k : Nat)
    (hf : 2 * src.length < fuel) :
    ∃ s cs, NewScanner r src.length opt = some s ∧ calls fuel k s = some cs ∧
      ∀ l ∈ yielded cs, ∃ seg ∈ src.splitOn 10, l = noCR seg ∧
        (seg.getLast? = some 13 → seg = l ++ [13]) ∧ (seg.getLast? ≠ some 13 → l = seg) := by
  obtain ⟨s, h1, _, _, h4⟩ := run_of_new r src opt hsrc hr hc
  have key : ∀ (cs : List (Bool × Scanner)) (a : List (Bool × List UInt8 × Option Error))
      (l : List UInt8) (e : Option Error), cs.map observe = specRun k a (false, l, e) →
      (∀ o ∈ a, o ∈ expectedObs (opt.getD defaultOptions).IgnoreEmptyLine src) →
      ∀ y ∈ yielded cs, ∃ seg ∈ src.splitOn 10, y = noCR seg ∧
        (seg.getLast? = some 13 → seg = y ++ [13]) ∧ (seg.getLast? ≠ some 13 → y = seg) := by
    intro cs a l e hcs ha y hy
    obtain ⟨o, ho, rfl⟩ := yielded_subset_specRun cs k a l e hcs y hy
    obtain ⟨seg, hseg, hl⟩ := expectedObs_line_mem _ _ o (ha o ho)
    refine ⟨seg, hseg, hl, ?_, ?_⟩
    · intro hg; rw [hl]; exact (noCR_spec seg).1 hg
    · intro hg; rw [hl]; exact (noCR_spec seg).2 hg
  rcases h4 fuel hf with ⟨j, _, _, hrun⟩ | ⟨_, hrun⟩
  · obtain ⟨cs, c1, c2, _⟩ := hrun k
    exact ⟨s, cs, h1, c1, key cs _ _ _ c2 (fun o ho => List.mem_of_mem_take ho)⟩
  · obtain ⟨cs, c1, c2, _⟩ := hrun k
    exact ⟨s, cs, h1, c1, key cs _ _ _ c2 (fun o ho => ho)⟩

/-- Witness for C13: the source `ab\r\ncd\r` with nil options. -/
theorem C13_witness :
    (bytesOf "ab\r\ncd\r" ≠ [] ∧ 1 ≤ ((none : Option Options).getD defaultOptions).ChunkSize) ∧
    ∃ s cs, NewScanner (bytesReader (bytesOf "ab\r\ncd\r")) (bytesOf "ab\r\ncd\r").length none =
        some s ∧ calls 17 4 s = some cs ∧
      ∀ l ∈ yielded cs, ∃ seg ∈ (bytesOf "ab\r\ncd\r").splitOn 10, l = noCR seg ∧
        (seg.getLast? = some 13 → seg = l ++ [13]) ∧ (seg.getLast? ≠ some 13 → l = seg) :=
  ⟨by decide, C13_cr_removed_from_every_segment (bytesReader (bytesOf "ab\r\ncd\r"))
    (bytesOf "ab\r\ncd\r") none (by decide) (bytesReader_reads _) (by decide) 17 4
    (by decide)⟩

theorem expectedObs_err (ign : Bool) (p : List UInt8) :
    ∀ o ∈ expectedObs ign p, o.2.2 ≠ some .ErrOverflow := by
  intro o ho
  simp only [expectedObs, List.mem_append, List.mem_map, List.mem_singleton] at ho
  rcases ho with ⟨l, _, rfl⟩ | rfl <;> simp

/-- In a run that shows a part of the expected observations and then a false result for
ever, a call that has the overflow error returned false and holds an empty line. -/
theorem overflow_call_facts (cs : List (Bool × Scanner)) (k : Nat) (ign : Bool)
    (p l : List UInt8) (a : List (Bool × List UInt8 × Option Error)) (e : Option Error)
    (h : cs.map observe = specRun k a (false, l, e))
    (ha : ∀ o ∈ a, o ∈ expectedObs ign p) (hl : e = some .ErrOverflow → l = []) :
    ∀ c ∈ cs, Err c.2 = some .ErrOverflow → c.1 = false ∧ Bytes c.2 = [] := by
  intro c hc he
  have hm : observe c ∈ cs.map observe := List.mem_map_of_mem _ hc
  rw [h] at hm
  rcases mem_specRun hm with h1 | h1
  · exact absurd he (expectedObs_err ign p _ (ha _ h1))
  · have e1 := congrArg (fun o : Bool × List UInt8 × Option Error => o.1) h1
    have e2 := congrArg (fun o : Bool × List UInt8 × Option Error => o.2.1) h1
    have e3 := congrArg (fun o : Bool × List UInt8 × Option Error => o.2.2) h1
    simp only [observe] at e1 e2 e3
    exact ⟨e1, by rw [e2]; exact hl (by rw [← e3, he])⟩

/-- C16: for every non-empty source whose reads succeed, every chunk size of at least 1,
every suppression setting and every ceiling, the lines yielded over more calls than the
source has bytes are an initial part of the lines yielded by the same scan with a ceiling
of at least the source length; the run ends with `io.EOF` or `ErrOverflow`, and a call
that reports `ErrOverflow` returned false and holds an empty current line. -/
theorem C16_ceiling_never_truncates (r : ReaderAt) (src : List UInt8) (chunk buf big : Int)
    (ign : Bool) (hsrc : src ≠ []) (hr : Reads r src) (hc : 1 ≤ chunk)
    (hbig : (src.length : Int) ≤ big) (fuel k : Nat) (hf : 2 * src.length < fuel)
    (hk : src.length < k) :
    ∃ s sbig cs csbig,
      NewScanner r src.length (some ⟨chunk, buf, ign⟩) = some s ∧
      NewScanner r src.length (some ⟨chunk, big, ign⟩) = some sbig ∧
      calls fuel k s = some cs ∧ calls fuel k sbig = some csbig ∧
      (∃ rest, yielded csbig = yielded cs ++ rest) ∧
      ((∃ c ∈ cs, Err c.2 = some .EOF) ∨ (∃ c ∈ cs, Err c.2 = some .ErrOverflow)) ∧
      (∀ c ∈ cs, Err c.2 = some .ErrOverflow → c.1 = false ∧ Bytes c.2 = []) := by
  obtain ⟨s, h1, _, _, h4⟩ := run_of_new r src (some ⟨chunk, buf, ign⟩) hsrc hr hc
  obtain ⟨sbig, g1, _, g3, g4⟩ := run_of_new r src (some ⟨chunk, big, ign⟩) hsrc hr hc
  simp only [Option.getD_some] at h4 g3 g4
  have hl := expectedObs_length_le ign src
  obtain ⟨csbig, b1, b2⟩ : ∃ csbig, calls fuel k sbig = some csbig ∧
      yielded csbig = (expectedObs ign src).map fun o => o.2.1 := by
    rcases g4 fuel hf with ⟨j, _, ht, _⟩ | ⟨_, hrun⟩
    · exact absurd ht (not_tight_of_ceiling (by rw [g3]; exact le_trans hbig (le_max_left _ _)))
    · obtain ⟨cs, c1, c2, _⟩ := hrun k
      exact ⟨cs, c1, yielded_of_run cs k ign src _ _ hk c2⟩
  rcases h4 fuel hf with ⟨j, hj, _, hrun⟩ | ⟨_, hrun⟩
  · obtain ⟨cs, c1, c2, _⟩ := hrun k
    have hy := yielded_of_specRun cs k _ _ _ c2
      (fun o ho => expectedObs_ok ign src o (List.mem_of_mem_take ho))
      (by rw [List.length_take]; omega)
    refine ⟨s, sbig, cs, csbig, h1, g1, c1, b1, ⟨((expectedObs ign src).drop j).map
      fun o => o.2.1, ?_⟩, Or.inr (overflow_visible cs k _ c2 (by rw [List.length_take]; omega)),
      overflow_call_facts cs k ign src _ _ _ c2 (fun o ho => List.mem_of_mem_take ho)
        (fun _ => rfl)⟩
    rw [b2, hy, ← List.map_append, List.take_append_drop]
  · obtain ⟨cs, c1, c2, _⟩ := hrun k
    refine ⟨s, sbig, cs, csbig, h1, g1, c1, b1, ⟨[], ?_⟩,
      Or.inl (eof_run_facts cs k ign src c2 hk).2,
      overflow_call_facts cs k ign src _ _ _ c2 (fun o ho => ho) (fun h => by simp at h)⟩
    rw [b2, yielded_of_run cs k ign src _ _ hk c2, List.append_nil]

/-- Witness for C16: the source `x\nabc\ncd` with chunk size 1, ceiling 3 against
ceiling 8. -/
theorem C16_witness :
    (bytesOf "x\nabc\ncd" ≠ [] ∧ (1 : Int) ≤ 1 ∧ ((bytesOf "x\nabc\ncd").length : Int) ≤ 8) ∧
    ∃ s sbig cs csbig,
      NewScanner (bytesReader (bytesOf "x\nabc\ncd")) (bytesOf "x\nabc\ncd").length
        (some ⟨1, 3, false⟩) = some s ∧
      NewScanner (bytesReader (bytesOf "x\nabc\ncd")) (bytesOf "x\nabc\ncd").length
        (some ⟨1, 8, false⟩) = some sbig ∧
      calls 17 9 s = some cs ∧ calls 17 9 sbig = some csbig ∧
      (∃ rest, yielded csbig = yielded cs ++ rest) ∧
      ((∃ c ∈ cs, Err c.2 = some .EOF) ∨ (∃ c ∈ cs, Err c.2 = some .ErrOverflow)) ∧
      (∀ c ∈ cs, Err c.2 = some .ErrOverflow → c.1 = false ∧ Bytes c.2 = []) :=
  ⟨by decide, C16_ceiling_never_truncates (bytesReader (bytesOf "x\nabc\ncd"))
    (bytesOf "x\nabc\ncd") 1 3 8 false (by decide) (bytesReader_reads _) (by decide)
    (by decide) 17 9 (by decide) (by decide)⟩

theorem scanIterLog_fst (s : Scanner) : (scanIterLog s).1 = scanIter s := by
  by_cases h1 : 0 ≤ LastIndexByte s.buf1.data 10
  · by_cases h2 : (s.opt.IgnoreEmptyLine &&
      (noCR (s.buf1.data.drop (LastIndexByte s.buf1.data 10 + 1).toNat)).length == 0) = true
    · simp only [scanIterLog, scanIter, h1, h2, if_true]
    · simp only [scanIterLog, scanIter, h1, h2, if_true, Bool.false_eq_true, if_false]
  · by_cases h3 : s.last = 0
    · simp only [scanIterLog, scanIter, h1, h3, if_true, if_false]
    · by_cases h4 : s.opt.ChunkSize > s.last
      · by_cases h5 : s.last + (s.buf1.data.length : Int) > s.opt.BufferSize
        · simp only [scanIterLog, scanIter, h1, h3, h4, h5, if_true, if_false]
        · by_cases h6 : s.last < 0
          · simp only [scanIterLog, scanIter, h1, h3, h4, h5, h6, if_true, if_false]
          · rcases hr : (s.r s.last.toNat (s.last - s.last)).err with _ | e
            · simp only [scanIterLog, scanIter, h1, h3, h4, h5, h6, hr, if_true, if_false]
            · cases e <;>
                simp only [scanIterLog, scanIter, h1, h3, h4, h5, h6, hr, if_true, if_false]
      · by_cases h5 : s.opt.ChunkSize + (s.buf1.data.length : Int) > s.opt.BufferSize
        · simp only [scanIterLog, scanIter, h1, h3, h4, h5, if_true, if_false]
        · by_cases h6 : s.opt.ChunkSize < 0
          · simp only [scanIterLog, scanIter, h1, h3, h4, h5, h6, if_true, if_false]
          · rcases hr : (s.r s.opt.ChunkSize.toNat (s.last - s.opt.ChunkSize)).err with _ | e
            · simp only [scanIterLog, scanIter, h1, h3, h4, h5, h6, hr, if_true, if_false]
            · cases e <;>
                simp only [scanIterLog, scanIter, h1, h3, h4, h5, h6, hr, if_true, if_false]

theorem scanLoopLog_fst (fuel : Nat) : ∀ s, (scanLoopLog fuel s).1 = scanLoop fuel s := by
  induction fuel with
  | zero => intro s; rfl
  | succ fuel ih =>
    intro s
    have h := scanIterLog_fst s
    simp only [scanLoopLog, scanLoop]
    rcases hs : scanIterLog s with ⟨st, log⟩
    rw [hs] at h
    simp only at h
    rw [← h]
    cases st with
    | ret ok s1 => rfl
    | «continue» s1 => exact ih s1
    | panic => rfl

theorem ScanLog_fst (fuel : Nat) (s : Scanner) : (ScanLog fuel s).1 = Scan fuel s := by
  unfold ScanLog Scan
  split_ifs
  · rfl
  · exact scanLoopLog_fst fuel s

theorem noCR_length_le (b : List UInt8) : (noCR b).length ≤ b.length := by
  unfold noCR
  split_ifs
  · simp
  · exact Nat.le_refl _

theorem pass_found {n : Int} {s : Scanner} (h : Live n s)
    (h1 : 0 ≤ LastIndexByte s.buf1.data 10) :
    ∃ s1, scanIterLog s = (if (s.opt.IgnoreEmptyLine && s1.line.length == 0) = true
        then (.continue s1, []) else (.ret true s1, [])) ∧
      PassOK n s [] s1 ∧ Progress s s1 := by
  have hlt := LastIndexByte_lt s.buf1.data 10
  obtain ⟨o, ho⟩ : ∃ o : Nat, LastIndexByte s.buf1.data 10 = o :=
    ⟨_, (Int.toNat_of_nonneg h1).symm⟩
  have hon : o < s.buf1.data.length := by omega
  have e1 : ((o : Int) + 1).toNat = o + 1 := by omega
  have hB := h.buf_le
  refine ⟨{ s with
      offset := o
      line := noCR (s.buf1.data.drop (o + 1))
      buf1 := { s.buf1 with data := s.buf1.data.take o } }, ?_, ?_, ?_⟩
  · simp only [scanIterLog, ho, e1, Int.toNat_ofNat, Int.ofNat_nonneg, if_true]
  · have hl : (noCR (s.buf1.data.drop (o + 1))).length ≤ s.buf1.data.length :=
      le_trans (noCR_length_le _) (by simp)
    refine ⟨⟨h.keeps, h.last_nonneg, ?_, h.chunk, ?_, ?_⟩, rfl, rfl, le_refl _,
      Or.inl ⟨rfl, fun _ => rfl⟩⟩
    · have := h.inside
      simp only [List.length_take]
      omega
    · simp only [List.length_take]
      omega
    · show ((noCR (s.buf1.data.drop (o + 1))).length : Int) ≤ s.opt.BufferSize
      omega
  · refine ⟨Or.inl ⟨rfl, ?_⟩, ?_, fun he => he⟩
    · simp only [List.length_take]; omega
    · simp only [List.length_take]; omega

theorem pass_head {n : Int} {s : Scanner} (h : Live n s)
    (h1 : ¬ (0 ≤ LastIndexByte s.buf1.data 10)) (h3 : s.last = 0) :
    ∃ s1, scanIterLog s = (.ret true s1, []) ∧ PassOK n s [] s1 ∧ s1.err = some .EOF := by
  refine ⟨{ s with
      offset := LastIndexByte s.buf1.data 10
      line := noCR s.buf1.data
      err := some .EOF }, ?_, ?_, rfl⟩
  · simp only [scanIterLog, h1, h3, if_true, if_false]
  · have hl := noCR_length_le s.buf1.data
    have hB := h.buf_le
    refine ⟨⟨h.keeps, h.last_nonneg, h.inside, h.chunk, h.buf_le, ?_⟩, rfl, rfl, le_refl _,
      Or.inl ⟨rfl, fun _ => rfl⟩⟩
    show ((noCR s.buf1.data).length : Int) ≤ s.opt.BufferSize
    omega

theorem scanIterLog_refill (s : Scanner) (h1 : ¬ (0 ≤ LastIndexByte s.buf1.data 10))
    (h3 : ¬ s.last = 0) :
    scanIterLog s =
      refillWith s (if s.opt.ChunkSize > s.last then s.last else s.opt.ChunkSize) := by
  by_cases h4 : s.opt.ChunkSize > s.last
  · simp only [scanIterLog, refillWith, h1, h3, h4, if_true, if_false]
  · simp only [scanIterLog, refillWith, h1, h3, h4, if_true, if_false]

theorem refillWith_ok {n : Int} {s : Scanner} (h : Live n s) (c : Int) (hc1 : 1 ≤ c)
    (hc2 : c ≤ s.last) :
    ∃ s1 st log, refillWith s c = (st, log) ∧ PassOK n s log s1 ∧
      ((st = .ret false s1 ∧ s1.err ≠ none) ∨ (st = .ret true s1 ∧ s1.err = some .EOF) ∨
        (st = .continue s1 ∧ Progress s s1 ∧ s1.err = none)) := by
  have hin := h.inside
  have hB := h.buf_le
  have hline := h.line_le
  have hk : ((c.toNat : Nat) : Int) = c := Int.toNat_of_nonneg (by omega)
  have hk1 : 1 ≤ c.toNat := by omega
  by_cases h5 : c + (s.buf1.data.length : Int) > s.opt.BufferSize
  · refine ⟨_, _, _, by simp only [refillWith, h5, if_true]; rfl, ?_, Or.inl ⟨rfl, by simp⟩⟩
    refine ⟨⟨h.keeps, ?_, ?_, hc1, hB, ?_⟩, rfl, rfl, ?_, Or.inl ⟨rfl, by simp⟩⟩
    · show 0 ≤ s.last - c; omega
    · show s.last - c + (s.buf1.data.length : Int) ≤ n; omega
    · show ((([] : List UInt8).length : Nat) : Int) ≤ s.opt.BufferSize
      simp only [List.length_nil]; omega
    · show s.last - c ≤ s.last; omega
  · have h6 : ¬ (c < 0) := by omega
    rcases hr : (s.r c.toNat (s.last - c)).err with _ | e
    · have hlen := h.keeps _ _ hr
      refine ⟨_, _, _, by simp only [refillWith, h5, h6, hr, if_false]; rfl, ?_,
        Or.inr (Or.inr ⟨rfl, ?_, rfl⟩)⟩
      · refine ⟨⟨h.keeps, ?_, ?_, hc1, ?_, hline⟩, rfl, rfl, ?_,
          Or.inr ⟨c.toNat, rfl, hk1, ?_⟩⟩
        · show 0 ≤ s.last - c; omega
        · show s.last - c + ((((s.r c.toNat (s.last - c)).data ++
            s.buf1.data).length : Nat) : Int) ≤ n
          rw [List.length_append, hlen]; push_cast; omega
        · show ((((s.r c.toNat (s.last - c)).data ++
            s.buf1.data).length : Nat) : Int) ≤ s.opt.BufferSize
          rw [List.length_append, hlen]; push_cast; omega
        · show s.last - c ≤ s.last; omega
        · show s.last - c + (c.toNat : Int) = s.last; omega
      · refine ⟨Or.inr ?_, ?_, fun _ => rfl⟩
        · show s.last - c < s.last; omega
        · show 2 * (s.last - c) + ((((s.r c.toNat (s.last - c)).data ++
            s.buf1.data).length : Nat) : Int) < 2 * s.last + s.buf1.data.length
          rw [List.length_append, hlen]; push_cast; omega
    · have hl := noCR_length_le s.buf1.data
      cases e with
      | EOF =>
        refine ⟨_, _, _, by simp only [refillWith, h5, h6, hr, if_false]; rfl, ?_,
          Or.inr (Or.inl ⟨rfl, rfl⟩)⟩
        refine ⟨⟨h.keeps, ?_, ?_, hc1, hB, ?_⟩, rfl, rfl, ?_, Or.inr ⟨c.toNat, rfl, hk1, ?_⟩⟩
        · show 0 ≤ s.last - c; omega
        · show s.last - c + (s.buf1.data.length : Int) ≤ n; omega
        · show ((noCR s.buf1.data).length : Int) ≤ s.opt.BufferSize; omega
        · show s.last - c ≤ s.last; omega
        · show s.last - c + (c.toNat : Int) = s.last; omega
      | ErrOverflow =>
        refine ⟨_, _, _, by simp only [refillWith, h5, h6, hr, if_false]; rfl, ?_,
          Or.inl ⟨rfl, by simp⟩⟩
        refine ⟨⟨h.keeps, ?_, ?_, hc1, hB, hline⟩, rfl, rfl, ?_,
          Or.inr ⟨c.toNat, rfl, hk1, ?_⟩⟩
        · show 0 ≤ s.last - c; omega
        · show s.last - c + (s.buf1.data.length : Int) ≤ n; omega
        · show s.last - c ≤ s.last; omega
        · show s.last - c + (c.toNat : Int) = s.last; omega
      | other code =>
        refine ⟨_, _, _, by simp only [refillWith, h5, h6, hr, if_false]; rfl, ?_,
          Or.inl ⟨rfl, by simp⟩⟩
        refine ⟨⟨h.keeps, ?_, ?_, hc1, hB, hline⟩, rfl, rfl, ?_,
          Or.inr ⟨c.toNat, rfl, hk1, ?_⟩⟩
        · show 0 ≤ s.last - c; omega
        · show s.last - c + (s.buf1.data.length : Int) ≤ n; omega
        · show s.last - c ≤ s.last; omega
        · show s.last - c + (c.toNat : Int) = s.last; omega

/-- A refill pass over any reader: it stops on overflow without reading, or issues one
read of at least one byte that ends where the remaining count stood, and goes on by the
result of the read. -/
theorem pass_refill {n : Int} {s : Scanner} (h : Live n s)
    (h1 : ¬ (0 ≤ LastIndexByte s.buf1.data 10)) (h3 : ¬ s.last = 0) :
    ∃ s1 st log, scanIterLog s = (st, log) ∧ PassOK n s log s1 ∧
      ((st = .ret false s1 ∧ s1.err ≠ none) ∨ (st = .ret true s1 ∧ s1.err = some .EOF) ∨
        (st = .continue s1 ∧ Progress s s1 ∧ s1.err = none)) := by
  have hch := h.chunk
  have hpos := h.last_nonneg
  rw [scanIterLog_refill s h1 h3]
  refine refillWith_ok h _ ?_ ?_
  · split_ifs <;> omega
  · split_ifs <;> omega

theorem Tiled_append {top mid bot : Int} {l1 l2 : List (Nat × Int)} :
    Tiled top l1 mid → Tiled mid l2 bot → Tiled top (l1 ++ l2) bot := by
  induction l1 generalizing top with
  | nil => intro h1 h2; simp only [Tiled] at h1; subst h1; simpa using h2
  | cons q rest ih =>
    intro h1 h2
    simp only [Tiled, List.cons_append] at h1 ⊢
    exact ⟨h1.1, h1.2.1, h1.2.2.1, ih h1.2.2.2 h2⟩

theorem Tiled_length {top bot : Int} {log : List (Nat × Int)} (h : Tiled top log bot) :
    bot + log.length ≤ top := by
  induction log generalizing top with
  | nil => simp only [Tiled] at h; subst h; simp
  | cons q rest ih =>
    simp only [Tiled] at h
    have := ih h.2.2.2
    have h1 := h.1
    have h3 := h.2.2.1
    simp only [List.length_cons]
    push_cast
    omega

theorem Tiled_bot_nonneg {top bot : Int} {log : List (Nat × Int)} (h : Tiled top log bot)
    (ht : 0 ≤ top) : 0 ≤ bot := by
  induction log generalizing top with
  | nil => simp only [Tiled] at h; subst h; exact ht
  | cons q rest ih =>
    simp only [Tiled] at h
    exact ih h.2.2.2 h.2.1

theorem Tiled_mem {top bot : Int} {log : List (Nat × Int)} (h : Tiled top log bot) :
    ∀ q ∈ log, 1 ≤ q.1 ∧ 0 ≤ q.2 ∧ q.2 + q.1 ≤ top := by
  induction log generalizing top with
  | nil => intro q hq; simp at hq
  | cons p rest ih =>
    simp only [Tiled] at h
    intro q hq
    rcases List.mem_cons.mp hq with rfl | hq
    · exact ⟨h.1, h.2.1, le_of_eq h.2.2.1⟩
    · have := ih h.2.2.2 q hq
      have h1 : (1 : Int) ≤ (p.1 : Int) := by exact_mod_cast h.1
      have h3 := h.2.2.1
      exact ⟨this.1, this.2.1, by omega⟩

theorem PassOK_tiled {n : Int} {s s1 : Scanner} {log : List (Nat × Int)}
    (h : PassOK n s log s1) :
    ∃ mid, Tiled s.last log mid ∧ s1.last ≤ mid ∧ (s1.err = none → s1.last = mid) := by
  obtain ⟨hl, _, _, hle, hlog⟩ := h
  rcases hlog with ⟨rfl, he⟩ | ⟨k, rfl, hk, hs⟩
  · exact ⟨s.last, rfl, hle, he⟩
  · exact ⟨s1.last, ⟨hk, hl.last_nonneg, hs, rfl⟩, le_refl _, fun _ => rfl⟩

/-- Over any reader the loop returns within `2 * last + len(buf1) + 1` passes. -/
theorem loop_general (n : Int) : ∀ (fuel : Nat) (s : Scanner), Live n s → s.err = none →
    2 * s.last + s.buf1.data.length < fuel →
    ∃ ok s1 log, scanLoopLog fuel s = (.returned ok s1, log) ∧ CallOK n s ok log s1 := by
  intro fuel
  induction fuel with
  | zero =>
    intro s h _ hf
    have := h.last_nonneg
    simp at hf; omega
  | succ fuel ih =>
    intro s h herr hf
    by_cases h1 : 0 ≤ LastIndexByte s.buf1.data 10
    · obtain ⟨s1, hit, hp, hprog⟩ := pass_found h h1
      by_cases hsup : (s.opt.IgnoreEmptyLine && s1.line.length == 0) = true
      · rw [if_pos hsup] at hit
        obtain ⟨ok, s2, log, hl, hc⟩ := ih s1 hp.1 (hprog.2.2 herr)
          (by have := hprog.2.1; push_cast at hf; omega)
        refine ⟨ok, s2, log, by simp only [scanLoopLog, hit, hl, List.nil_append], ?_⟩
        obtain ⟨c1, c2, c3, c4, c5, bot, c6, c7, c8⟩ := hc
        obtain ⟨_, p2, p3, p4, p5⟩ := hp
        have hlast : s1.last = s.last := by
          rcases p5 with ⟨_, he⟩ | ⟨k, hk, _⟩
          · exact he (hprog.2.2 herr)
          · simp at hk
        exact ⟨c1, c2.trans p2, c3.trans p3, le_trans c4 p4, c5, bot, hlast ▸ c6, c7, c8⟩
      · rw [if_neg hsup] at hit
        obtain ⟨mid, m1, m2, m3⟩ := PassOK_tiled hp
        exact ⟨true, s1, [], by simp only [scanLoopLog, hit], hp.1, hp.2.1, hp.2.2.1,
          hp.2.2.2.1, by simp, mid, m1, m2, m3⟩
    · by_cases h3 : s.last = 0
      · obtain ⟨s1, hit, hp, _⟩ := pass_head h h1 h3
        obtain ⟨mid, m1, m2, m3⟩ := PassOK_tiled hp
        exact ⟨true, s1, [], by simp only [scanLoopLog, hit], hp.1, hp.2.1, hp.2.2.1,
          hp.2.2.2.1, by simp, mid, m1, m2, m3⟩
      · obtain ⟨s1, st, log, hit, hp, hcase⟩ := pass_refill h h1 h3
        obtain ⟨mid, m1, m2, m3⟩ := PassOK_tiled hp
        rcases hcase with ⟨rfl, he⟩ | ⟨rfl, _⟩ | ⟨rfl, hprog, he⟩
        · exact ⟨false, s1, log, by simp only [scanLoopLog, hit], hp.1, hp.2.1, hp.2.2.1,
            hp.2.2.2.1, fun _ => he, mid, m1, m2, m3⟩
        · exact ⟨true, s1, log, by simp only [scanLoopLog, hit], hp.1, hp.2.1, hp.2.2.1,
            hp.2.2.2.1, by simp, mid, m1, m2, m3⟩
        · obtain ⟨ok, s2, log2, hl, hc⟩ := ih s1 hp.1 he
            (by have := hprog.2.1; push_cast at hf; omega)
          refine ⟨ok, s2, log ++ log2, by simp only [scanLoopLog, hit, hl], ?_⟩
          obtain ⟨c1, c2, c3, c4, c5, bot, c6, c7, c8⟩ := hc
          have hmid : s1.last = mid := m3 he
          exact ⟨c1, c2.trans hp.2.1, c3.trans hp.2.2.1, le_trans c4 hp.2.2.2.1, c5, bot,
            Tiled_append m1 (hmid ▸ c6), c7, c8⟩

theorem Scan_general (n : Int) (fuel : Nat) (s : Scanner) (h : Live n s)
    (hf : 2 * n < fuel) :
    ∃ ok s1 log, ScanLog fuel s = (.returned ok s1, log) ∧ Scan fuel s = .returned ok s1 ∧
      CallOK n s ok log s1 := by
  by_cases he : s.err = none
  · have hin := h.inside
    have hpos := h.last_nonneg
    obtain ⟨ok, s1, log, hl, hc⟩ := loop_general n fuel s h he (by omega)
    have e1 : ScanLog fuel s = scanLoopLog fuel s := by simp [ScanLog, he]
    refine ⟨ok, s1, log, e1.trans hl, ?_, hc⟩
    rw [← ScanLog_fst, e1, hl]
  · refine ⟨false, s, [], by simp [ScanLog, he], Scan_of_err fuel s he, h, rfl, rfl, le_refl _,
      fun _ => he, s.last, rfl, le_refl _, fun _ => rfl⟩

theorem callsLog_of_err (fuel : Nat) (s : Scanner) (h : s.err ≠ none) :
    ∀ k, callsLog fuel k s = [] := by
  intro k
  induction k with
  | zero => rfl
  | succ k ih => simp [callsLog, ScanLog, h, ih]

/-- Every run over any reader: all calls return, every state is live, the remaining count
never grows, and the reads tile the source backward from the remaining count. -/
theorem calls_general (n : Int) (fuel : Nat) (hf : 2 * n < fuel) :
    ∀ (k : Nat) (s : Scanner), Live n s →
    ∃ cs bot, calls fuel k s = some cs ∧ cs.length = k ∧
      (∀ c ∈ cs, Live n c.2 ∧ c.2.r = s.r ∧ c.2.opt.BufferSize = s.opt.BufferSize) ∧
      List.Chain (fun a b : Int => b ≤ a) s.last (cs.map fun c => c.2.last) ∧
      Tiled s.last (callsLog fuel k s) bot ∧ 0 ≤ bot := by
  intro k
  induction k with
  | zero =>
    intro s h
    exact ⟨[], s.last, rfl, rfl, by simp, List.Chain.nil, rfl, h.last_nonneg⟩
  | succ k ih =>
    intro s h
    obtain ⟨ok, s1, log, hl, hs, c1, c2, c3, c4, _, bot, c6, c7, c8⟩ :=
      Scan_general n fuel s h hf
    obtain ⟨cs, bot1, d1, d2, d3, d4, d5, d6⟩ := ih s1 c1
    have hlog : callsLog fuel (k + 1) s = log ++ callsLog fuel k s1 := by
      simp only [callsLog, hl]
    refine ⟨(ok, s1) :: cs, if s1.err = none then bot1 else bot, by simp [calls, hs, d1],
      by simp [d2], ?_, ?_, ?_, ?_⟩
    · intro c hc
      rcases List.mem_cons.mp hc with rfl | hc
      · exact ⟨c1, c2, c3⟩
      · obtain ⟨e1, e2, e3⟩ := d3 c hc
        exact ⟨e1, e2.trans c2, e3.trans c3⟩
    · simp only [List.map_cons]
      exact List.Chain.cons c4 d4
    · rw [hlog]
      by_cases he : s1.err = none
      · rw [if_pos he]
        exact Tiled_append c6 ((c8 he) ▸ d5)
      · rw [if_neg he, callsLog_of_err fuel s1 he, List.append_nil]
        exact c6
    · by_cases he : s1.err = none
      · rw [if_pos he]; exact d6
      · rw [if_neg he]; exact le_trans c1.last_nonneg c7

theorem NewScanner_live (r : ReaderAt) (size chunk buf : Int) (ign : Bool)
    (hk : KeepsLength r) (hsize : 1 ≤ size) (hc : 1 ≤ chunk) :
    ∃ s, NewScanner r size (some ⟨chunk, buf, ign⟩) = some s ∧ Live size s ∧ s.r = r ∧
      s.last = size ∧ s.buf1.data = [] ∧ s.err = none ∧ s.opt.BufferSize = max buf chunk := by
  have hs : ¬ (size < 1) := by omega
  obtain ⟨s, hnew⟩ : ∃ s, NewScanner r size (some ⟨chunk, buf, ign⟩) = some s := by
    simp [NewScanner, hs]
  obtain ⟨_, f1, f2, f3, f4, f5, _⟩ := NewScanner_state r size _ s hnew
  obtain ⟨o1, _, o3⟩ := NewScanner_opt r size _ s hnew
  simp only [Option.getD_some] at o1 o3
  have hB : s.opt.BufferSize = max buf chunk := by
    rw [o3]; split_ifs <;> omega
  refine ⟨s, hnew, ⟨by rw [f1]; exact hk, by omega, by rw [f2, f3]; simp, by omega, ?_, ?_⟩,
    f1, f2, f3, f5, hB⟩
  · rw [f3, hB]; simp; omega
  · rw [f4, hB]; simp; omega

theorem bytesReader_keeps (src : List UInt8) : KeepsLength (bytesReader src) := by
  intro k off h
  by_cases h1 : off < 0
  · simp [bytesReader, h1] at h
  · by_cases h2 : off ≥ (src.length : Int)
    · simp [bytesReader, h1, h2] at h
    · simp only [bytesReader, h1, h2, if_false] at h ⊢
      split_ifs at h with h3
      simp only [List.length_take, List.length_drop] at h3 ⊢
      omega

/-- A pass that continues, over any reader: the state stays live, and the pending buffer
got shorter or the remaining count got smaller. -/
theorem continue_progress {n : Int} {t t1 : Scanner} (h : Live n t)
    (hc : scanIter t = .continue t1) : Live n t1 ∧ Progress t t1 := by
  rw [← scanIterLog_fst] at hc
  by_cases h1 : 0 ≤ LastIndexByte t.buf1.data 10
  · obtain ⟨s1, hit, hp, hprog⟩ := pass_found h h1
    rw [hit] at hc
    split_ifs at hc
    simp only [Step.continue.injEq] at hc
    subst hc
    exact ⟨hp.1, hprog⟩
  · by_cases h3 : t.last = 0
    · obtain ⟨s1, hit, _, _⟩ := pass_head h h1 h3
      rw [hit] at hc
      simp at hc
    · obtain ⟨s1, st, log, hit, hp, hcase⟩ := pass_refill h h1 h3
      rw [hit] at hc
      simp only at hc
      rcases hcase with ⟨rfl, _⟩ | ⟨rfl, _⟩ | ⟨rfl, hprog, _⟩
      · simp at hc
      · simp at hc
      · simp only [Step.continue.injEq] at hc
        subst hc
        exact ⟨hp.1, hprog⟩

/-- C17: for every scanner built with a chunk size of at least 1 over any reader, the
pending buffer is within the sanitized ceiling after construction and after every `Scan`
call, and so is the current line, hence every yielded line. -/
theorem C17_ceiling_bounds_buffer (r : ReaderAt) (size chunk buf : Int) (ign : Bool)
    (hk : KeepsLength r) (hsize : 1 ≤ size) (hc : 1 ≤ chunk) (fuel k : Nat)
    (hf : 2 * size < fuel) :
    ∃ s cs, NewScanner r size (some ⟨chunk, buf, ign⟩) = some s ∧ calls fuel k s = some cs ∧
      s.opt.BufferSize = max buf chunk ∧ (s.buf1.data.length : Int) ≤ max buf chunk ∧
      ∀ c ∈ cs, c.2.opt.BufferSize = max buf chunk ∧
        (c.2.buf1.data.length : Int) ≤ max buf chunk ∧
        ((Bytes c.2).length : Int) ≤ max buf chunk := by
  obtain ⟨s, h1, hl, _, _, _, _, hB⟩ := NewScanner_live r size chunk buf ign hk hsize hc
  obtain ⟨cs, _, c1, _, c3, _⟩ := calls_general size fuel hf k s hl
  refine ⟨s, cs, h1, c1, hB, hB ▸ hl.buf_le, ?_⟩
  intro c hcm
  obtain ⟨d1, _, d3⟩ := c3 c hcm
  have e : c.2.opt.BufferSize = max buf chunk := d3.trans hB
  exact ⟨e, e ▸ d1.buf_le, e ▸ d1.line_le⟩

/-- Witness for C17: the source `x\nabc\ncd` with chunk size 2 and ceiling 3. -/
theorem C17_witness :
    ((1 : Int) ≤ 8 ∧ (1 : Int) ≤ 2 ∧ 2 * (8 : Int) < (17 : Nat)) ∧
    ∃ s cs, NewScanner (bytesReader (bytesOf "x\nabc\ncd")) 8 (some ⟨2, 3, false⟩) = some s ∧
      calls 17 5 s = some cs ∧
      s.opt.BufferSize = max 3 2 ∧ (s.buf1.data.length : Int) ≤ max 3 2 ∧
      ∀ c ∈ cs, c.2.opt.BufferSize = max 3 2 ∧
        (c.2.buf1.data.length : Int) ≤ max 3 2 ∧
        ((Bytes c.2).length : Int) ≤ max 3 2 :=
  ⟨by decide, C17_ceiling_bounds_buffer (bytesReader (bytesOf "x\nabc\ncd")) 8 2 3 false
    (bytesReader_keeps _) (by decide) (by decide) 17 5 (by decide)⟩

/-- C18: for every scanner built with a size and a chunk size of at least 1, over any
reader, every `Scan` call of every run returns within `2 * size + 1` passes of the loop;
the built scanner and every state a call or a pass leaves satisfy the invariant `Live`,
every call from such a state returns, and every pass from such a state that does not
return shortens the pending buffer or strictly decreases the remaining count. -/
theorem C18_scan_terminates (r : ReaderAt) (size chunk buf : Int) (ign : Bool)
    (hk : KeepsLength r) (hsize : 1 ≤ size) (hc : 1 ≤ chunk) (fuel : Nat)
    (hf : 2 * size < fuel) :
    ∃ s, NewScanner r size (some ⟨chunk, buf, ign⟩) = some s ∧ Live size s ∧
      (∀ k, ∃ cs, calls fuel k s = some cs ∧ cs.length = k ∧ ∀ c ∈ cs, Live size c.2) ∧
      (∀ t, Live size t → ∃ ok t1, Scan fuel t = .returned ok t1 ∧ Live size t1) ∧
      ∀ t t1, Live size t → scanIter t = .continue t1 →
        Live size t1 ∧ ((t1.last = t.last ∧ t1.buf1.data.length < t.buf1.data.length) ∨
          t1.last < t.last) := by
  obtain ⟨s, h1, hl, _⟩ := NewScanner_live r size chunk buf ign hk hsize hc
  refine ⟨s, h1, hl, ?_, ?_, ?_⟩
  · intro k
    obtain ⟨cs, _, c1, c2, c3, _⟩ := calls_general size fuel hf k s hl
    exact ⟨cs, c1, c2, fun c hcm => (c3 c hcm).1⟩
  · intro t ht
    obtain ⟨ok, t1, _, _, hs, hc1, _⟩ := Scan_general size fuel t ht hf
    exact ⟨ok, t1, hs, hc1⟩
  · intro t t1 ht hcont
    obtain ⟨a, b⟩ := continue_progress ht hcont
    exact ⟨a, b.1⟩

/-- Witness for C18: a reader all of whose reads fail, and the source of the tests read
one byte at a time. -/
theorem C18_witness :
    ((1 : Int) ≤ 21 ∧ (1 : Int) ≤ 1 ∧ 2 * (21 : Int) < (43 : Nat)) ∧
    (∃ s, NewScanner failingReader 21 (some ⟨1, 100, true⟩) = some s ∧ Live 21 s ∧
      (∀ k, ∃ cs, calls 43 k s = some cs ∧ cs.length = k ∧ ∀ c ∈ cs, Live 21 c.2) ∧
      (∀ t, Live 21 t → ∃ ok t1, Scan 43 t = .returned ok t1 ∧ Live 21 t1) ∧
      ∀ t t1, Live 21 t → scanIter t = .continue t1 →
        Live 21 t1 ∧ ((t1.last = t.last ∧ t1.buf1.data.length < t.buf1.data.length) ∨
          t1.last < t.last)) ∧
    ∃ s, NewScanner (bytesReader (bytesOf "line-0\nline-1\nline-2\n")) 21
        (some ⟨1, 100, true⟩) = some s ∧ Live 21 s ∧
      (∀ k, ∃ cs, calls 43 k s = some cs ∧ cs.length = k ∧ ∀ c ∈ cs, Live 21 c.2) ∧
      (∀ t, Live 21 t → ∃ ok t1, Scan 43 t = .returned ok t1 ∧ Live 21 t1) ∧
      ∀ t t1, Live 21 t → scanIter t = .continue t1 →
        Live 21 t1 ∧ ((t1.last = t.last ∧ t1.buf1.data.length < t.buf1.data.length) ∨
          t1.last < t.last) :=
  ⟨by decide,
    C18_scan_terminates failingReader 21 1 100 true (fun _ _ h => by simp [failingReader] at h)
      (by decide) (by decide) 43 (by decide),
    C18_scan_terminates (bytesReader (bytesOf "line-0\nline-1\nline-2\n")) 21 1 100 true
      (bytesReader_keeps _) (by decide) (by decide) 43 (by decide)⟩

/-- C19: for every scanner built with size `n ≥ 1` and a chunk size of at least 1, over
any reader, the `ReadAt` calls of any number of `Scan` calls tile the source backward:
every read has a length of at least 1 and an offset of at least 0 and ends at or below
`n`, the first read ends at `n` and each later one ends where the one before it starts;
the remaining count after each call is at least 0 and at most what it was before. -/
theorem C19_reads_tile_the_source (r : ReaderAt) (size chunk buf : Int) (ign : Bool)
    (hk : KeepsLength r) (hsize : 1 ≤ size) (hc : 1 ≤ chunk) (fuel k : Nat)
    (hf : 2 * size < fuel) :
    ∃ s cs bot, NewScanner r size (some ⟨chunk, buf, ign⟩) = some s ∧
      calls fuel k s = some cs ∧
      Tiled size (callsLog fuel k s) bot ∧ 0 ≤ bot ∧
      (∀ q ∈ callsLog fuel k s, 1 ≤ q.1 ∧ 0 ≤ q.2 ∧ q.2 + q.1 ≤ size) ∧
      List.Chain (fun a b : Int => b ≤ a) size (cs.map fun c => c.2.last) ∧
      ∀ c ∈ cs, 0 ≤ c.2.last := by
  obtain ⟨s, h1, hl, _, hlast, _⟩ := NewScanner_live r size chunk buf ign hk hsize hc
  obtain ⟨cs, bot, c1, _, c3, c4, c5, c6⟩ := calls_general size fuel hf k s hl
  rw [hlast] at c4 c5
  exact ⟨s, cs, bot, h1, c1, c5, c6, Tiled_mem c5, c4, fun c hcm => (c3 c hcm).1.last_nonneg⟩

/-- Witness for C19: the source of the tests read in chunks of 10 bytes; its reads are 10
bytes at offset 11, 10 bytes at offset 1 and 1 byte at offset 0. -/
theorem C19_witness :
    ((1 : Int) ≤ 21 ∧ (1 : Int) ≤ 10 ∧ 2 * (21 : Int) < (43 : Nat)) ∧
    (∃ s cs bot, NewScanner (bytesReader (bytesOf "line-0\nline-1\nline-2\n")) 21
        (some ⟨10, 100, true⟩) = some s ∧
      calls 43 4 s = some cs ∧
      Tiled 21 (callsLog 43 4 s) bot ∧ 0 ≤ bot ∧
      (∀ q ∈ callsLog 43 4 s, 1 ≤ q.1 ∧ 0 ≤ q.2 ∧ q.2 + q.1 ≤ 21) ∧
      List.Chain (fun a b : Int => b ≤ a) 21 (cs.map fun c => c.2.last) ∧
      ∀ c ∈ cs, 0 ≤ c.2.last) ∧
    ∃ s, NewScanner (bytesReader (bytesOf "line-0\nline-1\nline-2\n")) 21
        (some ⟨10, 100, true⟩) = some s ∧
      callsLog 43 4 s = [(10, 11), (10, 1), (1, 0)] :=
  ⟨by decide,
    C19_reads_tile_the_source (bytesReader (bytesOf "line-0\nline-1\nline-2\n")) 21 10 100 true
      (bytesReader_keeps _) (by decide) (by decide) 43 4 (by decide),
    _, rfl, by decide⟩

theorem refillWith_reads_le_one (s : Scanner) (c : Int) : (refillWith s c).2.length ≤ 1 := by
  by_cases h5 : c + (s.buf1.data.length : Int) > s.opt.BufferSize
  · simp [refillWith, h5]
  · by_cases h6 : c < 0
    · simp [refillWith, h5, h6]
    · rcases hr : (s.r c.toNat (s.last - c)).err with _ | e
      · simp [refillWith, h5, h6, hr]
      · cases e <;> simp [refillWith, h5, h6, hr]

/-- A pass of the loop issues no read or one read, from any state. -/
theorem scanIterLog_reads_le_one (s : Scanner) : (scanIterLog s).2.length ≤ 1 := by
  by_cases h1 : 0 ≤ LastIndexByte s.buf1.data 10
  · by_cases h2 : (s.opt.IgnoreEmptyLine &&
      (noCR (s.buf1.data.drop (LastIndexByte s.buf1.data 10 + 1).toNat)).length == 0) = true
    · simp [scanIterLog, h1, h2]
    · simp [scanIterLog, h1, h2]
  · by_cases h3 : s.last = 0
    · simp [scanIterLog, h1, h3]
    · rw [scanIterLog_refill s h1 h3]
      exact refillWith_reads_le_one s _

/-- C14, counterexample: on the source `ab` read one byte at a time the first `Scan` call
issues two reads, one byte at offset 1 and one byte at offset 0, and the remaining count
goes from 2 to 0, two step sizes, in that one call. -/
theorem C14_counterexample :
    ∃ s s1, NewScanner (bytesReader (bytesOf "ab")) 2 (some ⟨1, 10, true⟩) = some s ∧
      Scan 5 s = .returned true s1 ∧ (ScanLog 5 s).2 = [(1, 1), (1, 0)] ∧
      (ScanLog 5 s).2.length = 2 ∧ s.opt.ChunkSize = 1 ∧ s.last = 2 ∧ s1.last = 0 :=
  ⟨_, _, rfl, rfl, by decide, by decide, rfl, rfl, rfl⟩

/-- C14, amended: each pass of the loop issues at most one read, and a `Scan` call runs
as many passes as it takes: for every scanner built with a size and a chunk size of at
least 1 over any reader, a `Scan` call on the built scanner, or on the scanner as any
number of calls left it, returns and issues at most as many reads as the remaining count
before the call. -/
theorem C14_reads_per_call (r : ReaderAt) (size chunk buf : Int) (ign : Bool)
    (hk : KeepsLength r) (hsize : 1 ≤ size) (hc : 1 ≤ chunk) (fuel k : Nat)
    (hf : 2 * size < fuel) :
    (∀ u : Scanner, (scanIterLog u).2.length ≤ 1) ∧
    ∃ s cs, NewScanner r size (some ⟨chunk, buf, ign⟩) = some s ∧ calls fuel k s = some cs ∧
      ∀ t ∈ s :: cs.map (fun c => c.2),
        (∃ ok t1, (ScanLog fuel t).1 = .returned ok t1) ∧
        (((ScanLog fuel t).2.length : Nat) : Int) ≤ t.last := by
  refine ⟨scanIterLog_reads_le_one, ?_⟩
  obtain ⟨s, h1, hl, _⟩ := NewScanner_live r size chunk buf ign hk hsize hc
  obtain ⟨cs, _, c1, _, c3, _⟩ := calls_general size fuel hf k s hl
  have key : ∀ t, Live size t → (∃ ok t1, (ScanLog fuel t).1 = .returned ok t1) ∧
      (((ScanLog fuel t).2.length : Nat) : Int) ≤ t.last := by
    intro t ht
    obtain ⟨ok, t1, log, e1, _, d1, _, _, _, _, bot, d6, d7, _⟩ :=
      Scan_general size fuel t ht hf
    rw [e1]
    have := Tiled_length d6
    have := d1.last_nonneg
    exact ⟨⟨ok, t1, rfl⟩, by simp only; omega⟩
  refine ⟨s, cs, h1, c1, ?_⟩
  intro t ht
  rcases List.mem_cons.mp ht with rfl | ht
  · exact key _ hl
  · obtain ⟨c, hcm, rfl⟩ := List.mem_map.mp ht
    exact key _ (c3 c hcm).1

/-- Witness for C14: the source of the tests read one byte at a time. -/
theorem C14_witness :
    ((1 : Int) ≤ 21 ∧ (1 : Int) ≤ 1 ∧ 2 * (21 : Int) < (43 : Nat)) ∧
    ((∀ u : Scanner, (scanIterLog u).2.length ≤ 1) ∧
    ∃ s cs, NewScanner (bytesReader (bytesOf "line-0\nline-1\nline-2\n")) 21
        (some ⟨1, 100, true⟩) = some s ∧ calls 43 4 s = some cs ∧
      ∀ t ∈ s :: cs.map (fun c => c.2),
        (∃ ok t1, (ScanLog 43 t).1 = .returned ok t1) ∧
        (((ScanLog 43 t).2.length : Nat) : Int) ≤ t.last) :=
  ⟨by decide, C14_reads_per_call (bytesReader (bytesOf "line-0\nline-1\nline-2\n")) 21 1 100
    true (bytesReader_keeps _) (by decide) (by decide) 43 4 (by decide)⟩

/-- One pass with suppression on against the same pass with suppression off: the pass goes
the same way, except that a blank result becomes a continue. -/
theorem sim_pass (s s1 : Scanner) (hoff : s.opt.IgnoreEmptyLine = false) (he : s.err = none) :
    (scanIter s = .continue s1 →
      scanIter (withSuppression s) = .continue (withSuppression s1) ∧ s1.err = none ∧
        s1.opt.IgnoreEmptyLine = false) ∧
    (∀ ok, scanIter s = .ret ok s1 →
      scanIter (withSuppression s) =
        if isBlank ok s1 = true then .continue (withSuppression s1)
        else .ret ok (withSuppression s1)) := by
  by_cases h1 : 0 ≤ LastIndexByte s.buf1.data 10
  · have e : scanIter s = .ret true { s with
        offset := LastIndexByte s.buf1.data 10
        line := noCR (s.buf1.data.drop (LastIndexByte s.buf1.data 10 + 1).toNat)
        buf1 := { s.buf1 with
          data := s.buf1.data.take (LastIndexByte s.buf1.data 10).toNat } } := by
      simp only [scanIter, h1, hoff, if_true, Bool.false_and, Bool.false_eq_true, if_false]
    rw [e]
    refine ⟨(fun h => by cases h), fun ok h => ?_⟩
    cases h
    simp only [scanIter, withSuppression, isBlank, h1, he, if_true, Bool.true_and,
      beq_self_eq_true]
  · by_cases h3 : s.last = 0
    · have e : scanIter s = .ret true { s with
          offset := LastIndexByte s.buf1.data 10
          line := noCR s.buf1.data
          err := some .EOF } := by
        simp only [scanIter, h1, h3, if_true, if_false]
      rw [e]
      refine ⟨(fun h => by cases h), fun ok h => ?_⟩
      cases h
      simp only [scanIter, withSuppression, isBlank, h1, h3, if_true, if_false]
      simp
    · by_cases h4 : s.opt.ChunkSize > s.last
      · by_cases h5 : s.last + (s.buf1.data.length : Int) > s.opt.BufferSize
        · simp only [scanIter, withSuppression, isBlank, h1, h3, h4, h5, if_true, if_false]
          refine ⟨(fun h => by cases h), fun ok h => ?_⟩
          cases h
          simp
        · by_cases h6 : s.last < 0
          · simp only [scanIter, withSuppression, isBlank, h1, h3, h4, h5, h6, if_true,
              if_false]
            refine ⟨(fun h => by cases h), fun ok h => ?_⟩
            cases h
          · rcases hr : (s.r s.last.toNat (s.last - s.last)).err with _ | e
            · simp only [scanIter, withSuppression, isBlank, h1, h3, h4, h5, h6, hr, if_true,
                if_false]
              refine ⟨fun h => ?_, fun ok h => by cases h⟩
              cases h
              exact ⟨rfl, rfl, hoff⟩
            · cases e <;>
              · simp only [scanIter, withSuppression, isBlank, h1, h3, h4, h5, h6, hr, if_true,
                  if_false]
                refine ⟨(fun h => by cases h), fun ok h => ?_⟩
                cases h
                simp [hr]
      · by_cases h5 : s.opt.ChunkSize + (s.buf1.data.length : Int) > s.opt.BufferSize
        · simp only [scanIter, withSuppression, isBlank, h1, h3, h4, h5, if_true, if_false]
          refine ⟨(fun h => by cases h), fun ok h => ?_⟩
          cases h
          simp
        · by_cases h6 : s.opt.ChunkSize < 0
          · simp only [scanIter, withSuppression, isBlank, h1, h3, h4, h5, h6, if_true,
              if_false]
            refine ⟨(fun h => by cases h), fun ok h => ?_⟩
            cases h
          · rcases hr : (s.r s.opt.ChunkSize.toNat (s.last - s.opt.ChunkSize)).err with _ | e
            · simp only [scanIter, withSuppression, isBlank, h1, h3, h4, h5, h6, hr, if_true,
                if_false]
              refine ⟨fun h => ?_, fun ok h => by cases h⟩
              cases h
              exact ⟨rfl, rfl, hoff⟩
            · cases e <;>
              · simp only [scanIter, withSuppression, isBlank, h1, h3, h4, h5, h6, hr, if_true,
                  if_false]
                refine ⟨(fun h => by cases h), fun ok h => ?_⟩
                cases h
                simp [hr]

theorem scanLoop_mono (g : Nat) : ∀ (f : Nat) (s s1 : Scanner) (ok : Bool),
    scanLoop f s = .returned ok s1 → scanLoop (f + g) s = .returned ok s1 := by
  intro f
  induction f with
  | zero => intro s s1 ok h; cases h
  | succ f ih =>
    intro s s1 ok h
    rw [Nat.add_right_comm]
    simp only [scanLoop] at h ⊢
    rcases hs : scanIter s with ⟨ok2, s2⟩ | s2 | _
    · rw [hs] at h; exact h
    · rw [hs] at h; exact ih s2 s1 ok h
    · rw [hs] at h; cases h

/-- A whole call with suppression on against the same call with suppression off: when the
call without suppression returns a blank line, the call with suppression is, after some
passes, where the next call without suppression starts; otherwise both return alike. -/
theorem sim_loop : ∀ (f : Nat) (s s1 : Scanner) (ok : Bool),
    s.opt.IgnoreEmptyLine = false → s.err = none → scanLoop f s = .returned ok s1 →
    (isBlank ok s1 = true → ∃ m, m ≤ f ∧
      ∀ g, scanLoop (m + g) (withSuppression s) = scanLoop g (withSuppression s1)) ∧
    (isBlank ok s1 = false →
      scanLoop f (withSuppression s) = .returned ok (withSuppression s1)) := by
  intro f
  induction f with
  | zero => intro s s1 ok _ _ h; cases h
  | succ f ih =>
    intro s s1 ok hoff he h
    simp only [scanLoop] at h
    rcases hs : scanIter s with ⟨ok2, s2⟩ | s2 | _
    · rw [hs] at h
      cases h
      have hp := (sim_pass s s1 hoff he).2 ok hs
      constructor
      · intro hb
        rw [if_pos hb] at hp
        refine ⟨1, by omega, fun g => ?_⟩
        rw [Nat.add_comm]
        simp only [scanLoop, hp]
      · intro hb
        rw [if_neg (by simp [hb])] at hp
        simp only [scanLoop, hp]
    · rw [hs] at h
      obtain ⟨hp, he2, hoff2⟩ := (sim_pass s s2 hoff he).1 hs
      obtain ⟨i1, i2⟩ := ih s2 s1 ok hoff2 he2 h
      constructor
      · intro hb
        obtain ⟨m, hm, hg⟩ := i1 hb
        refine ⟨m + 1, by omega, fun g => ?_⟩
        rw [Nat.add_right_comm]
        simp only [scanLoop, hp]
        exact hg g
      · intro hb
        simp only [scanLoop, hp]
        exact i2 hb
    · rw [hs] at h; cases h

theorem Abs_withSuppression {src : List UInt8} {B : Int} {L n : Nat} {s : Scanner}
    (h : Abs src B false L n s) : Abs src B true L n (withSuppression s) :=
  ⟨h.reads, h.last, h.len, h.buf, h.bound, h.chunk, h.ceil, rfl, h.fit, h.bn⟩

theorem CallPost_returns {src : List UInt8} {B : Int} {ign : Bool} {c : Int} {p : List UInt8}
    {out : Outcome} (h : CallPost src B ign c p out) : ∃ ok s1, out = .returned ok s1 := by
  rcases h with ⟨s1, h1, _⟩ | ⟨s1, _, _, h1, _⟩ | ⟨s1, h1, _⟩
  · exact ⟨_, _, h1⟩
  · exact ⟨_, _, h1⟩
  · exact ⟨_, _, h1⟩

theorem RunIs_of_Scan_eq {fuel : Nat} {s t : Scanner} {B : Int}
    {e : List (Bool × List UInt8 × Option Error)} {x : Bool × List UInt8 × Option Error}
    (h : Scan fuel s = Scan fuel t) (hr : RunIs fuel t B e x) : RunIs fuel s B e x := by
  intro k
  have hk : calls fuel k s = calls fuel k t := by
    cases k with
    | zero => rfl
    | succ k => simp only [calls, h]
  rw [hk]
  exact hr k

/-- Successive calls with suppression on against the same calls with suppression off: the
run without suppression shows some true results `A` and then `x` for ever, and the run with
suppression shows the kept ones among `A` and then the same `x` for ever. -/
theorem run_pair (src : List UInt8) (B : Int) (fuel : Nat) :
    ∀ (m : Nat) (s : Scanner) (L n : Nat), Abs src B false L n s → s.err = none →
      L + n < m → 2 * (L + n) < fuel →
      ∃ A x, (∀ o ∈ A, o.1 = true) ∧ x.1 = false ∧ x.2.2 ≠ none ∧ A.length ≤ L + n + 1 ∧
        RunIs fuel s B A x ∧
        RunIs fuel (withSuppression s) B (A.filter keptUnderSuppression) x := by
  intro m
  induction m with
  | zero => intro s L n _ _ hm _; omega
  | succ m ih =>
    intro s L n h herr hm hf
    have hs : Scan fuel s = scanLoop fuel s := by simp [Scan, herr]
    have hs2 : Scan fuel (withSuppression s) = scanLoop fuel (withSuppression s) := by
      simp [Scan, withSuppression, herr]
    have hb := h.bound
    have hplen : (src.take (L + n)).length = L + n := by rw [List.length_take]; omega
    rcases loop_spec src B false fuel s L n h herr (by omega) with
      ⟨s1, h1, h2, h3, h4, h5, h6⟩ | ⟨s1, L1, n1, h1, h2, h3, h4, h5⟩ |
      ⟨s1, h1, h2, h3, h4, h5, h6⟩
    · have hsim := (sim_loop fuel s s1 false h.ign herr h1).2 (by simp [isBlank])
      rw [← hs] at h1
      rw [← hs2] at hsim
      have hc : CeilOK B s1 := ⟨h5, by simp [h3, h4]⟩
      have r1 := RunIs.cons h1 hc (RunIs.stuck fuel s1 B (by simp [h3]) hc)
      have r2 := RunIs.cons hsim hc (RunIs.stuck fuel (withSuppression s1) B
        (by simp [withSuppression, h3]) hc)
      refine ⟨[], (false, s1.line, s1.err), by simp, rfl, by simp [h3], by simp, ?_, ?_⟩
      · intro k
        obtain ⟨cs, c1, c2, c3⟩ := r1 k
        exact ⟨cs, c1, by rw [c2, specRun_single_self], c3⟩
      · intro k
        obtain ⟨cs, c1, c2, c3⟩ := r2 k
        refine ⟨cs, c1, ?_, c3⟩
        rw [c2]
        exact specRun_single_self k _
    · rw [hplen] at h4
      have hc : CeilOK B s1 := ⟨h3.ceil, by have := h3.bn; simp [h2]; omega⟩
      obtain ⟨A, x, a1, a2, a3, a4, a5, a6⟩ := ih s1 L1 n1 h3 h2 (by omega) (by omega)
      refine ⟨(true, s1.line, s1.err) :: A, x, ?_, a2, a3, by simp; omega, ?_, ?_⟩
      · intro o ho
        rcases List.mem_cons.mp ho with rfl | ho
        · rfl
        · exact a1 o ho
      · rw [← hs] at h1
        exact RunIs.cons h1 hc a5
      · by_cases hl : s1.line.length = 0
        · have hblank : isBlank true s1 = true := by simp [isBlank, h2, hl]
          obtain ⟨j, hj, hg⟩ := (sim_loop fuel s s1 true h.ign herr h1).1 hblank
          obtain ⟨ok2, s2, hret⟩ := CallPost_returns
            (loop_spec src B true fuel (withSuppression s) L n (Abs_withSuppression h) herr
              (by omega))
          have e1 : scanLoop fuel (withSuppression s) =
              scanLoop (fuel - j) (withSuppression s1) := by
            have := hg (fuel - j)
            rwa [Nat.add_sub_cancel' hj] at this
          have e2 : scanLoop fuel (withSuppression s1) = .returned ok2 s2 := by
            have := scanLoop_mono j (fuel - j) (withSuppression s1) s2 ok2
              (by rw [← e1]; exact hret)
            rwa [Nat.sub_add_cancel hj] at this
          have e3 : Scan fuel (withSuppression s) = Scan fuel (withSuppression s1) := by
            rw [hs2, hret]
            have : Scan fuel (withSuppression s1) = scanLoop fuel (withSuppression s1) := by
              simp [Scan, withSuppression, h2]
            rw [this, e2]
          have hk : keptUnderSuppression (true, s1.line, s1.err) = false := by
            simp [keptUnderSuppression, h2, hl]
          rw [List.filter_cons_of_neg (by simp [hk])]
          exact RunIs_of_Scan_eq e3 a6
        · have hnb : isBlank true s1 = false := by simp [isBlank, hl]
          have hsim := (sim_loop fuel s s1 true h.ign herr h1).2 hnb
          rw [← hs2] at hsim
          have hk : keptUnderSuppression (true, s1.line, s1.err) = true := by
            simp [keptUnderSuppression, hl]
          rw [List.filter_cons_of_pos hk]
          have r2 := RunIs.cons hsim hc a6
          exact r2
    · have hsim := (sim_loop fuel s s1 true h.ign herr h1).2 (by simp [isBlank, h2])
      rw [← hs] at h1
      rw [← hs2] at hsim
      have hc : CeilOK B s1 := ⟨h4, by simp [h2]; omega⟩
      have r1 := RunIs.cons h1 hc (RunIs.stuck fuel s1 B (by simp [h2]) hc)
      have r2 := RunIs.cons hsim hc (RunIs.stuck fuel (withSuppression s1) B
        (by simp [withSuppression, h2]) hc)
      have hk : keptUnderSuppression (true, s1.line, s1.err) = true := by
        simp [keptUnderSuppression, h2]
      refine ⟨[(true, s1.line, s1.err)], (false, s1.line, s1.err), by simp, rfl,
        by simp [h2], by simp, r1, ?_⟩
      rw [List.filter_cons_of_pos hk]
      exact r2

theorem NewScanner_withSuppression (r : ReaderAt) (size c b : Int) (s : Scanner)
    (h : NewScanner r size (some ⟨c, b, false⟩) = some s) :
    NewScanner r size (some ⟨c, b, true⟩) = some (withSuppression s) := by
  by_cases hs : size < 1
  · simp [NewScanner, hs] at h
  · simp only [NewScanner, hs, if_false, Option.some.injEq] at h ⊢
    subst h
    by_cases hb : b < c <;> simp [withSuppression, hb]

theorem specRun_getLast {α : Type} {k : Nat} {e : List α} (x : α) (h : e.length < k) :
    (specRun k e x).getLast? = some x := by
  rw [specRun_full x (le_of_lt h)]
  obtain ⟨n, hn⟩ : ∃ n, k - e.length = n + 1 := ⟨k - e.length - 1, by omega⟩
  rw [hn, List.replicate_succ', ← List.append_assoc, List.getLast?_concat]

theorem kept_filter_eq (cs : List (Bool × Scanner)) :
    ((cs.filter fun c => c.1 && !((Bytes c.2).length == 0 && Err c.2 == none)).map
        fun c => Bytes c.2) =
      (((cs.map observe).filter fun o => o.1 && keptUnderSuppression o).map fun o => o.2.1) := by
  rw [List.filter_map, List.map_map]
  rfl

theorem getLast_err_eq (cs : List (Bool × Scanner)) :
    (cs.getLast?.map fun c => Err c.2) = ((cs.map observe).getLast?.map fun o => o.2.2) := by
  rw [List.getLast?_map]
  cases cs.getLast? <;> rfl

/-- C15: for every non-empty source whose reads succeed, every chunk size of at least 1 and
every ceiling, over more calls than the source has bytes plus one, the lines yielded with
suppression on are the lines of the calls with suppression off that returned true, in the
same order, without those that are empty and came with a nil error (an empty head line
that comes with `io.EOF` stays); and the last call of both runs holds the same non-nil
error. -/
theorem C15_suppression_only_filters (r : ReaderAt) (src : List UInt8) (chunk buf : Int)
    (hsrc : src ≠ []) (hr : Reads r src) (hc : 1 ≤ chunk) (fuel k : Nat)
    (hf : 2 * src.length < fuel) (hk : src.length + 1 < k) :
    ∃ son soff cson csoff,
      NewScanner r src.length (some ⟨chunk, buf, true⟩) = some son ∧
      NewScanner r src.length (some ⟨chunk, buf, false⟩) = some soff ∧
      calls fuel k son = some cson ∧ calls fuel k soff = some csoff ∧
      yielded cson = ((csoff.filter fun c =>
        c.1 && !((Bytes c.2).length == 0 && Err c.2 == none)).map fun c => Bytes c.2) ∧
      ∃ e, (cson.getLast?.map fun c => Err c.2) = some (some e) ∧
        (csoff.getLast?.map fun c => Err c.2) = some (some e) := by
  obtain ⟨soff, g1, g2, _, _, g5, g6⟩ :=
    NewScanner_init r src (some ⟨chunk, buf, false⟩) hsrc hr hc
  simp only [Option.getD_some] at g5
  rw [g5] at g6
  obtain ⟨A, ⟨xb, xl, xe⟩, a1, a2, a3, a4, a5, a6⟩ :=
    run_pair src soff.opt.BufferSize fuel (src.length + 1) soff src.length 0 g6 g2
      (by omega) (by omega)
  simp only at a2 a3
  subst a2
  obtain ⟨csoff, c1, c2, _⟩ := a5 k
  obtain ⟨cson, d1, d2, _⟩ := a6 k
  have hlen : (A.filter keptUnderSuppression).length ≤ A.length := List.length_filter_le _ _
  obtain ⟨e, he⟩ : ∃ e, xe = some e := Option.ne_none_iff_exists'.mp a3
  refine ⟨withSuppression soff, soff, cson, csoff,
    NewScanner_withSuppression r src.length chunk buf soff g1, g1, d1, c1, ?_, e, ?_, ?_⟩
  · rw [yielded_of_specRun cson k _ _ _ d2
      (fun o ho => a1 o (List.mem_of_mem_filter ho)) (by omega), kept_filter_eq, c2,
      specRun_full _ (by omega : A.length ≤ k), List.filter_append]
    have h1 : (A.filter fun o => o.1 && keptUnderSuppression o) =
        A.filter keptUnderSuppression :=
      List.filter_congr (fun o ho => by simp [a1 o ho])
    have h2 : ((List.replicate (k - A.length) (false, xl, xe)).filter
        fun o => o.1 && keptUnderSuppression o) = [] := by
      rw [List.filter_eq_nil_iff]
      intro o ho
      rw [List.eq_of_mem_replicate ho]
      simp
    rw [h1, h2, List.append_nil]
  · rw [getLast_err_eq, d2, specRun_getLast _ (by omega), he]
    rfl
  · rw [getLast_err_eq, c2, specRun_getLast _ (by omega), he]
    rfl

/-- Witness for C15: the source `a\n\nb\n\n` with chunk size 2 and ceiling 4. -/
theorem C15_witness :
    (bytesOf "a\n\nb\n\n" ≠ [] ∧ (1 : Int) ≤ 2) ∧
    ∃ son soff cson csoff,
      NewScanner (bytesReader (bytesOf "a\n\nb\n\n")) (bytesOf "a\n\nb\n\n").length
        (some ⟨2, 4, true⟩) = some son ∧
      NewScanner (bytesReader (bytesOf "a\n\nb\n\n")) (bytesOf "a\n\nb\n\n").length
        (some ⟨2, 4, false⟩) = some soff ∧
      calls 13 8 son = some cson ∧ calls 13 8 soff = some csoff ∧
      yielded cson = ((csoff.filter fun c =>
        c.1 && !((Bytes c.2).length == 0 && Err c.2 == none)).map fun c => Bytes c.2) ∧
      ∃ e, (cson.getLast?.map fun c => Err c.2) = some (some e) ∧
        (csoff.getLast?.map fun c => Err c.2) = some (some e) :=
  ⟨by decide, C15_suppression_only_filters (bytesReader (bytesOf "a\n\nb\n\n"))
    (bytesOf "a\n\nb\n\n") 2 4 (by decide) (bytesReader_reads _) (by decide) 13 8
    (by decide) (by decide)⟩

end Reverse
